import Mathlib

/-!
Verification of the `flow` task orchestrator.

This file gives a shallow embedding of the core of the repository:

* `src/flow/scheduler.py` (identical in behaviour to the scheduler section of
  `src/cli.py`): `detect_cycles` (Kahn's algorithm on a dependency graph held
  in `defaultdict`s) and `get_execution_order` (level partitioning).
* the executor section of `src/cli.py`: `TaskStatus`, `TaskResult`,
  `save_state`, `load_state`, `execute_task`, `execute_level`.
* the run coordinator of `src/flow/cli.py` / `src/cli.py`: dependency
  blocking, per-level failure counting, resume, and state clearing.

Python `dict` / `defaultdict` objects are modelled as association lists with
the exact insertion-order semantics of CPython dicts (update in place,
append when the key is new); `time.time()` is a logical clock threaded
through an explicit state; spawning a child process is an injected oracle
`Nat → AttemptOutcome` indexed by the number of processes spawned so far,
mirroring the design note that command execution is an injected capability.
Iteration over the Python `set` `remaining_tasks` has no specified order, so
`get_execution_order` takes the enumeration order of that set as an explicit
parameter.
-/

/-- Task descriptor, as produced by the parser (`parser.py`). -/
structure FlowTask where
  id : String
  run : String
  depends_on : List String
deriving DecidableEq, Repr

/-- Dictionary lookup with `defaultdict(int)` semantics: missing keys read 0. -/
def dlookup (m : List (String × Int)) (k : String) : Int :=
  match m with
  | [] => 0
  | (k', v) :: rest => if k' = k then v else dlookup rest k

/-- Dictionary write `m[k] = v`: update in place, append when the key is new
(CPython dict insertion-order semantics). -/
def dset (m : List (String × Int)) (k : String) (v : Int) : List (String × Int) :=
  match m with
  | [] => [(k, v)]
  | (k', v') :: rest => if k' = k then (k', v) :: rest else (k', v') :: dset rest k v

/-- Dictionary update `m[k] += d` on a `defaultdict(int)`. -/
def dadd (m : List (String × Int)) (k : String) (d : Int) : List (String × Int) :=
  match m with
  | [] => [(k, d)]
  | (k', v) :: rest => if k' = k then (k', v + d) :: rest else (k', v) :: dadd rest k d

/-- Lookup in the adjacency `defaultdict(list)`: missing keys read `[]`. -/
def glookup (m : List (String × List String)) (k : String) : List String :=
  match m with
  | [] => []
  | (k', l) :: rest => if k' = k then l else glookup rest k

/-- Adjacency update `m[k].append(x)` on a `defaultdict(list)`. -/
def gappend (m : List (String × List String)) (k : String) (x : String) :
    List (String × List String) :=
  match m with
  | [] => [(k, [x])]
  | (k', l) :: rest => if k' = k then (k', l ++ [x]) :: rest else (k', l) :: gappend rest k x

/-- First loop of `detect_cycles` / `get_execution_order`:
`for task in tasks: in_degree[task.id] = 0`. -/
def initDeg (tasks : List FlowTask) : List (String × Int) :=
  tasks.foldl (fun m t => dset m t.id 0) []

/-- Second loop: for each task and each of its dependencies,
`in_degree[task.id] += 1`. -/
def buildDeg (tasks : List FlowTask) : List (String × Int) :=
  tasks.foldl (fun m t => t.depends_on.foldl (fun m _ => dadd m t.id 1) m) (initDeg tasks)

/-- Second loop, adjacency part: `graph[dep].append(task.id)`. -/
def buildGraph (tasks : List FlowTask) : List (String × List String) :=
  tasks.foldl (fun g t => t.depends_on.foldl (fun g d => gappend g d t.id) g) []

/-- The sum of the positive parts of the in-degree table; termination measure
for the Kahn loop. -/
def degSum (m : List (String × Int)) : Nat :=
  (m.map (fun p => p.2.toNat)).sum

/-- Inner loop of Kahn's algorithm: for each forward neighbour, decrement its
in-degree and enqueue it when the in-degree reaches zero. -/
def relax (deg : List (String × Int)) (queue : List String) (ns : List String) :
    List (String × Int) × List String :=
  match ns with
  | [] => (deg, queue)
  | nb :: rest =>
    let deg1 := dadd deg nb (-1)
    let queue1 := if dlookup deg1 nb = 0 then queue ++ [nb] else queue
    relax deg1 queue1 rest

@[simp] theorem dlookup_nil (k : String) : dlookup [] k = 0 := rfl

@[simp] theorem dlookup_cons (k1 : String) (v1 : Int) (rest : List (String × Int)) (k : String) :
    dlookup ((k1, v1) :: rest) k = if k1 = k then v1 else dlookup rest k := rfl

@[simp] theorem degSum_nil : degSum [] = 0 := rfl

@[simp] theorem degSum_cons (k : String) (v : Int) (m : List (String × Int)) :
    degSum ((k, v) :: m) = v.toNat + degSum m := by
  simp [degSum]

theorem dadd_cons (k1 : String) (v1 : Int) (rest : List (String × Int)) (k : String) (d : Int) :
    dadd ((k1, v1) :: rest) k d =
      if k1 = k then (k1, v1 + d) :: rest else (k1, v1) :: dadd rest k d := rfl

theorem dlookup_dadd_self (m : List (String × Int)) (k : String) (d : Int) :
    dlookup (dadd m k d) k = dlookup m k + d := by
  induction m with
  | nil => simp [dadd]
  | cons p rest ih =>
    obtain ⟨k1, v1⟩ := p
    by_cases h : k1 = k
    · subst h; simp [dadd_cons]
    · simp [dadd_cons, h, ih]

theorem dlookup_dadd_ne (m : List (String × Int)) (k k' : String) (d : Int) (h : k' ≠ k) :
    dlookup (dadd m k d) k' = dlookup m k' := by
  induction m with
  | nil =>
    simp only [dadd, dlookup_cons, dlookup_nil]
    rw [if_neg (fun hh => h hh.symm)]
  | cons p rest ih =>
    obtain ⟨k1, v1⟩ := p
    by_cases hp : k1 = k
    · subst hp
      have hk : ¬ k1 = k' := fun hh => h hh.symm
      simp [dadd_cons, hk]
    · by_cases hp' : k1 = k'
      · subst hp'
        simp [dadd_cons, hp]
      · simp [dadd_cons, hp, hp', ih]

theorem degSum_dadd_le (m : List (String × Int)) (k : String) :
    degSum (dadd m k (-1)) ≤ degSum m := by
  induction m with
  | nil => simp [dadd]
  | cons p rest ih =>
    obtain ⟨k1, v1⟩ := p
    rw [dadd_cons]
    by_cases h : k1 = k
    · rw [if_pos h]
      simp only [degSum_cons]
      omega
    · rw [if_neg h]
      simp only [degSum_cons]
      omega

theorem degSum_dadd_pos (m : List (String × Int)) (k : String) (h : 1 ≤ dlookup m k) :
    degSum (dadd m k (-1)) + 1 = degSum m := by
  induction m with
  | nil => simp at h
  | cons p rest ih =>
    obtain ⟨k1, v1⟩ := p
    rw [dadd_cons]
    by_cases hp : k1 = k
    · rw [if_pos hp]
      rw [dlookup_cons, if_pos hp] at h
      simp only [degSum_cons]
      omega
    · rw [if_neg hp]
      rw [dlookup_cons, if_neg hp] at h
      simp only [degSum_cons]
      have := ih h
      omega

theorem relax_measure (ns : List String) (deg : List (String × Int)) (queue : List String) :
    (relax deg queue ns).2.length + degSum (relax deg queue ns).1 ≤
      queue.length + degSum deg := by
  induction ns generalizing deg queue with
  | nil => simp [relax]
  | cons nb rest ih =>
    simp only [relax]
    by_cases h : dlookup (dadd deg nb (-1)) nb = 0
    · have h1 : dlookup deg nb = 1 := by
        have := dlookup_dadd_self deg nb (-1); omega
      have h2 : degSum (dadd deg nb (-1)) + 1 = degSum deg :=
        degSum_dadd_pos deg nb (by omega)
      have := ih (dadd deg nb (-1)) (queue ++ [nb])
      simp only [if_pos h]
      simp only [List.length_append, List.length_cons, List.length_nil] at this ⊢
      omega
    · have h2 : degSum (dadd deg nb (-1)) ≤ degSum deg := degSum_dadd_le deg nb
      have := ih (dadd deg nb (-1)) queue
      simp only [if_neg h]
      omega

/-- Main loop of Kahn's algorithm in `detect_cycles`: dequeue, count the node
as processed, and relax its forward neighbours. -/
def kahnLoop (g : List (String × List String)) (deg : List (String × Int))
    (queue : List String) (processed : Nat) : Nat :=
  match queue with
  | [] => processed
  | current :: rest =>
    let p := relax deg rest (glookup g current)
    kahnLoop g p.1 p.2 (processed + 1)
termination_by queue.length + degSum deg
decreasing_by
  refine lt_of_le_of_lt (relax_measure _ _ _) ?_
  simp only [List.length_cons]
  omega

/-- `TaskScheduler.detect_cycles` (src/flow/scheduler.py lines 19-48): Kahn's
algorithm; reports a cycle iff the number of processed tasks differs from
`len(tasks)`. -/
def detect_cycles (tasks : List FlowTask) : Bool :=
  let deg := buildDeg tasks
  let g := buildGraph tasks
  let queue := (deg.filter (fun p => p.2 == 0)).map (fun p => p.1)
  kahnLoop g deg queue 0 ≠ tasks.length

/-- Leveling loop of `get_execution_order`: repeatedly take all remaining
tasks of in-degree zero as the next level, remove them and decrement their
neighbours. `remaining` is the iteration order of the Python set
`remaining_tasks`. -/
def levelLoop (g : List (String × List String)) (deg : List (String × Int))
    (remaining : List String) : Except String (List (List String)) :=
  if remaining.isEmpty then .ok []
  else
    let current := remaining.filter (fun v => dlookup deg v == 0)
    if hc : current.isEmpty then .error "unresolvable dependencies"
    else
      let deg' := current.foldl
        (fun dg v => (glookup g v).foldl (fun dg nb => dadd dg nb (-1)) dg) deg
      let remaining' := remaining.filter (fun v => !(current.contains v))
      (levelLoop g deg' remaining').map (fun ls => current :: ls)
termination_by remaining.length
decreasing_by
  have hx : ∃ y, y ∈ current := by
    cases hcc : current with
    | nil => rw [hcc] at hc; simp at hc
    | cons y ys => exact ⟨y, List.mem_cons_self y ys⟩
  obtain ⟨y, hy⟩ := hx
  have hyr : y ∈ remaining := (List.mem_filter.mp hy).1
  have hy0 : dlookup deg y = 0 := by simpa using (List.mem_filter.mp hy).2
  refine List.length_filter_lt_length_iff_exists.mpr ⟨y, hyr, ?_⟩
  simp
  exact ⟨hyr, hy0⟩

/-- `TaskScheduler.get_execution_order` (src/flow/scheduler.py lines 50-82),
parameterized by the enumeration order of the set
`set(task.id for task in tasks)`. -/
def get_execution_order (tasks : List FlowTask) (setOrder : List String) :
    Except String (List (List String)) :=
  if detect_cycles tasks then .error "cyclic dependencies"
  else levelLoop (buildGraph tasks) (buildDeg tasks) setOrder

/-- The dependency edge relation of the task list: `dependsEdge u v` holds
when some task with id `v` lists `u` among its dependencies. -/
def dependsEdge (tasks : List FlowTask) (u v : String) : Prop :=
  ∃ t, t ∈ tasks ∧ t.id = v ∧ u ∈ t.depends_on

/-- A dependency cycle: a nonempty edge path from some node back to itself. -/
def HasCycle (tasks : List FlowTask) : Prop :=
  ∃ v, Relation.TransGen (dependsEdge tasks) v v

/-- The dependency list of the task with the given id (the unique one when
ids are unique). -/
def depsOf (tasks : List FlowTask) (v : String) : List String :=
  ((tasks.find? (fun t => t.id == v)).map (fun t => t.depends_on)).getD []

/-! ## Executor model (`src/cli.py`, executor section)

The result map `self.results` is an association list with CPython dict
semantics. A Python `TaskResult` is mutated in place and aliased by the
map; the model below re-inserts the task's updated entry at every point
where the map is observed (the two `save_state` calls and function return),
which is observationally equivalent because `execute_task` touches only its
own task's entry and the map is read only between those points. -/

/-- `TaskStatus` enum of `src/cli.py`; `value` gives the serialized string. -/
inductive TaskStatus where
  | pending
  | running
  | success
  | failed
  | retrying
deriving DecidableEq, Repr

/-- Serialized encoding of a status (`TaskStatus(Enum)` values). -/
def TaskStatus.value : TaskStatus → String
  | .pending => "pending"
  | .running => "running"
  | .success => "done"
  | .failed => "failed"
  | .retrying => "retrying"

/-- Decoding used by `load_state` via `TaskStatus(task_state['status'])`;
`none` models the `ValueError` raised on an unrecognized encoding. -/
def TaskStatus.ofValue : String → Option TaskStatus
  | "pending" => some .pending
  | "running" => some .running
  | "done" => some .success
  | "failed" => some .failed
  | "retrying" => some .retrying
  | _ => none

/-- `TaskResult` of `src/cli.py`. Timestamps are values of the logical
clock; `none` models Python `None`. -/
structure TaskResult where
  task_id : String
  status : TaskStatus
  start_time : Option Nat
  end_time : Option Nat
  attempts : Nat
  output : String
  error : String
deriving DecidableEq, Repr

/-- `TaskResult.__init__`. -/
def TaskResult.init (task_id : String) : TaskResult :=
  { task_id := task_id, status := .pending, start_time := none, end_time := none,
    attempts := 0, output := "", error := "" }

/-- Lookup in the result map (`self.results.get(k)` / `k in self.results`). -/
def rlookup (m : List (String × TaskResult)) (k : String) : Option TaskResult :=
  match m with
  | [] => none
  | (k', v) :: rest => if k' = k then some v else rlookup rest k

/-- Result-map write `self.results[k] = v` with dict insertion-order
semantics. -/
def rset (m : List (String × TaskResult)) (k : String) (v : TaskResult) :
    List (String × TaskResult) :=
  match m with
  | [] => [(k, v)]
  | (k', v') :: rest => if k' = k then (k', v) :: rest else (k', v') :: rset rest k v

/-- One serialized entry of the state file: the dict written per task by
`save_state`. -/
structure RawEntry where
  status : String
  attempts : Nat
  start_time : Option Nat
  end_time : Option Nat
deriving DecidableEq, Repr

/-- Contents of `flow_state.json`: absent, unparseable, or a parsed mapping
in file order. -/
inductive StateFile where
  | absent
  | malformed
  | parsed (entries : List (String × RawEntry))
deriving DecidableEq, Repr

/-- Outcome of one child-process invocation: the process exits with a code
after emitting output, times out, or fails to launch. -/
inductive AttemptOutcome where
  | exit (code : Int) (output : String)
  | timeout
  | fault (msg : String)
deriving DecidableEq, Repr

/-- Whether the attempt outcome is an exit with code zero. -/
def AttemptOutcome.isZeroExit : AttemptOutcome → Bool
  | .exit 0 _ => true
  | _ => false

/-- Executor state: the result map, the state file, the number of child
processes spawned so far, and the logical clock read by `time.time()`. -/
structure ExecState where
  results : List (String × TaskResult)
  stateFile : StateFile
  spawns : Nat
  now : Nat
deriving DecidableEq, Repr

/-- An executor as created by `TaskExecutor.__init__`: empty result map,
no spawns yet, with the given state file on disk. -/
def freshExec (file : StateFile) : ExecState :=
  { results := [], stateFile := file, spawns := 0, now := 0 }

/-- `TaskExecutor.save_state` (src/cli.py lines 237-248): serialize
`{status, attempts, start_time, end_time}` per task, in map order. -/
def save_state (results : List (String × TaskResult)) : List (String × RawEntry) :=
  results.map (fun p =>
    (p.1, { status := p.2.status.value, attempts := p.2.attempts,
            start_time := p.2.start_time, end_time := p.2.end_time }))

/-- Entry loop of `load_state`: decode entries in file order, inserting each
into the result map; a decode failure aborts the loop (the caught
exception), leaving entries inserted so far in place. -/
def loadEntries (es : List (String × RawEntry)) (results : List (String × TaskResult)) :
    Bool × List (String × TaskResult) :=
  match es with
  | [] => (true, results)
  | (tid, e) :: rest =>
    match TaskStatus.ofValue e.status with
    | none => (false, results)
    | some st =>
      loadEntries rest (rset results tid
        { task_id := tid, status := st, start_time := e.start_time,
          end_time := e.end_time, attempts := e.attempts, output := "", error := "" })

/-- `TaskExecutor.load_state` (src/cli.py lines 250-271): absent file
reports `False`; a parse failure or unrecognized status is caught, warned
about, and reported as `False`. -/
def load_state (st : ExecState) : Bool × ExecState :=
  match st.stateFile with
  | .absent => (false, st)
  | .malformed => (false, st)
  | .parsed es =>
    let r := loadEntries es st.results
    (r.1, { st with results := r.2 })

/-- The `while result.attempts < max_attempts` loop of
`TaskExecutor.execute_task` (src/cli.py lines 284-338). Each iteration
increments `attempts`, sets `running`/`retrying`, stamps `start_time`,
and spawns one child process; exit code zero ends with `done` and a state
save, anything else records `error` and retries; exhaustion ends with
`failed`, an `end_time` stamp and a state save. -/
def executeLoop (retries : Nat) (env : Nat → AttemptOutcome) (task : FlowTask)
    (r : TaskResult) (st : ExecState) : TaskResult × ExecState :=
  if r.attempts < retries + 1 then
    let r1 := { r with attempts := r.attempts + 1,
                       status := if r.attempts + 1 > 1 then TaskStatus.retrying
                                 else TaskStatus.running,
                       start_time := some st.now }
    let st1 := { st with now := st.now + 1 }
    let outcome := env st1.spawns
    let st2 := { st1 with spawns := st1.spawns + 1 }
    match outcome with
    | .exit code out =>
      if code = 0 then
        let r2 := { r1 with output := out, error := "", status := TaskStatus.success }
        let results := rset st2.results task.id r2
        (r2, { st2 with results := results, stateFile := .parsed (save_state results) })
      else
        let r2 := { r1 with output := out, error := "exit " ++ toString code }
        executeLoop retries env task r2 st2
    | .timeout =>
      let r2 := { r1 with error := "timeout" }
      executeLoop retries env task r2 st2
    | .fault msg =>
      let r2 := { r1 with error := msg }
      executeLoop retries env task r2 st2
  else
    let r1 := { r with status := TaskStatus.failed, end_time := some st.now }
    let st1 := { st with now := st.now + 1 }
    let results := rset st1.results task.id r1
    (r1, { st1 with results := results, stateFile := .parsed (save_state results) })
termination_by retries + 1 - r.attempts
decreasing_by all_goals omega

/-- `TaskExecutor.execute_task` (src/cli.py lines 273-338): create the
result entry if absent, short-circuit when already `done`, otherwise run
the attempt loop. -/
def execute_task (retries : Nat) (env : Nat → AttemptOutcome) (task : FlowTask)
    (st : ExecState) : TaskResult × ExecState :=
  let st0 := if (rlookup st.results task.id).isNone
             then { st with results := rset st.results task.id (TaskResult.init task.id) }
             else st
  let r := (rlookup st0.results task.id).getD (TaskResult.init task.id)
  if r.status = TaskStatus.success then (r, st0)
  else executeLoop retries env task r st0

/-- One step of the worker pool fold: run a task and append its result. -/
def execStep (retries : Nat) (env : Nat → AttemptOutcome)
    (acc : List TaskResult × ExecState) (t : FlowTask) : List TaskResult × ExecState :=
  let p := execute_task retries env t acc.2
  (acc.1 ++ [p.1], p.2)

/-- `TaskExecutor.execute_level` (src/cli.py lines 340-361), linearized:
skip tasks already recorded `done`, run the rest through `execute_task`,
then append the stored results of the skipped tasks. Concurrency within a
level only interleaves writes to distinct result-map entries, so the
sequential fold is an admissible linearization. -/
def execute_level (retries : Nat) (env : Nat → AttemptOutcome) (tasks : List FlowTask)
    (st : ExecState) : List TaskResult × ExecState :=
  let tasks_to_run := tasks.filter (fun t =>
    match rlookup st.results t.id with
    | none => true
    | some r => !(r.status = TaskStatus.success))
  if tasks_to_run.isEmpty then
    (tasks.filterMap (fun t => rlookup st.results t.id), st)
  else
    let run := tasks_to_run.foldl (execStep retries env) (([] : List TaskResult), st)
    (run.1 ++ (tasks.filter (fun t => !(tasks_to_run.contains t))).filterMap
        (fun t => rlookup run.2.results t.id),
     run.2)

/-! ## Run coordinator (`run` in src/flow/cli.py / src/cli.py) -/

/-- `task_map[task_id]` where `task_map = {task.id: task for task in tasks}`
(single occurrence per id under the parser's uniqueness guarantee). -/
def taskOf (tasks : List FlowTask) (tid : String) : FlowTask :=
  (tasks.find? (fun t => t.id == tid)).getD { id := tid, run := "", depends_on := [] }

/-- Dependency check of the run loop: a task is blocked when some
dependency has no recorded result or a recorded status other than `done`
(src/flow/cli.py lines 45-53). -/
def blockedTasks (tasks : List FlowTask) (results : List (String × TaskResult))
    (level : List String) : List String :=
  level.filter (fun tid =>
    (taskOf tasks tid).depends_on.any (fun dep =>
      match rlookup results dep with
      | none => true
      | some r => !(r.status = TaskStatus.success)))

/-- `runnable_tasks = [tid for tid in level if tid not in blocked_tasks]`
(src/flow/cli.py line 56). -/
def runnableTasks (tasks : List FlowTask) (results : List (String × TaskResult))
    (level : List String) : List String :=
  level.filter (fun tid => !((blockedTasks tasks results level).contains tid))

/-- One iteration of the run loop over a level (src/flow/cli.py lines
43-68): split into blocked and runnable, skip the level when nothing is
runnable, otherwise execute the runnable tasks and add the number of
`failed` results to the running failure total. -/
def runLevelStep (tasks : List FlowTask) (retries : Nat) (env : Nat → AttemptOutcome)
    (level : List String) (acc : Nat × ExecState) : Nat × ExecState :=
  let runnable := runnableTasks tasks acc.2.results level
  if runnable.isEmpty then acc
  else
    let p := execute_level retries env (runnable.map (taskOf tasks)) acc.2
    (acc.1 + p.1.countP (fun r => r.status = TaskStatus.failed), p.2)

/-- The run loop over all levels. -/
def runLevels (tasks : List FlowTask) (retries : Nat) (env : Nat → AttemptOutcome)
    (levels : List (List String)) (acc : Nat × ExecState) : Nat × ExecState :=
  match levels with
  | [] => acc
  | lv :: rest => runLevels tasks retries env rest (runLevelStep tasks retries env lv acc)

/-- The `run` command (src/flow/cli.py lines 22-80): plan, optionally load
state, run the levels, and on zero failures delete the state file. Returns
whether the run succeeded together with the final state. -/
def runPipeline (tasks : List FlowTask) (retries : Nat) (resume : Bool)
    (setOrder : List String) (env : Nat → AttemptOutcome) (file : StateFile) :
    Bool × ExecState :=
  match get_execution_order tasks setOrder with
  | .error _ => (false, { results := [], stateFile := file, spawns := 0, now := 0 })
  | .ok levels =>
    let st0 : ExecState := { results := [], stateFile := file, spawns := 0, now := 0 }
    let st1 := if resume then (load_state st0).2 else st0
    let p := runLevels tasks retries env levels (0, st1)
    if p.1 > 0 then (false, p.2)
    else (true, { p.2 with stateFile := .absent })

/-! ## Result-map and state-store lemmas -/

@[simp] theorem rlookup_nil (k : String) : rlookup [] k = none := rfl

@[simp] theorem rlookup_cons (k1 : String) (v1 : TaskResult)
    (rest : List (String × TaskResult)) (k : String) :
    rlookup ((k1, v1) :: rest) k = if k1 = k then some v1 else rlookup rest k := rfl

theorem rset_cons (k1 : String) (v1 : TaskResult) (rest : List (String × TaskResult))
    (k : String) (v : TaskResult) :
    rset ((k1, v1) :: rest) k v =
      if k1 = k then (k1, v) :: rest else (k1, v1) :: rset rest k v := rfl

theorem rlookup_rset_self (m : List (String × TaskResult)) (k : String) (v : TaskResult) :
    rlookup (rset m k v) k = some v := by
  induction m with
  | nil => simp [rset]
  | cons p rest ih =>
    obtain ⟨k1, v1⟩ := p
    rw [rset_cons]
    by_cases h : k1 = k
    · rw [if_pos h]; simp [h]
    · rw [if_neg h]; simp [h, ih]

theorem rlookup_rset_ne (m : List (String × TaskResult)) (k k' : String) (v : TaskResult)
    (h : k' ≠ k) : rlookup (rset m k v) k' = rlookup m k' := by
  induction m with
  | nil =>
    simp only [rset, rlookup_cons, rlookup_nil]
    rw [if_neg (fun hh => h hh.symm)]
  | cons p rest ih =>
    obtain ⟨k1, v1⟩ := p
    rw [rset_cons]
    by_cases hp : k1 = k
    · subst hp
      have hk : ¬ k1 = k' := fun hh => h hh.symm
      rw [if_pos rfl]
      simp [hk]
    · rw [if_neg hp]
      by_cases hp' : k1 = k'
      · subst hp'
        simp
      · simp [hp', ih]

/-- Round trip of the status encoding used by the state file. -/
theorem TaskStatus.ofValue_value (s : TaskStatus) : TaskStatus.ofValue s.value = some s := by
  cases s <;> rfl

@[simp] theorem save_state_keys (m : List (String × TaskResult)) :
    (save_state m).map Prod.fst = m.map Prod.fst := by
  simp [save_state, List.map_map]

/-- The decoded form of a persisted entry, as reconstructed by `load_state`. -/
def decodeResult (k : String) (r : TaskResult) : TaskResult :=
  { task_id := k, status := r.status, start_time := r.start_time,
    end_time := r.end_time, attempts := r.attempts, output := "", error := "" }

theorem loadEntries_frame (es : List (String × RawEntry)) (acc : List (String × TaskResult))
    (k : String) (h : k ∉ es.map Prod.fst) :
    rlookup (loadEntries es acc).2 k = rlookup acc k := by
  induction es generalizing acc with
  | nil => rfl
  | cons p rest ih =>
    obtain ⟨tid, e⟩ := p
    simp only [List.map_cons, List.mem_cons] at h
    push_neg at h
    simp only [loadEntries]
    cases hv : TaskStatus.ofValue e.status with
    | none => rfl
    | some st =>
      rw [ih _ h.2]
      exact rlookup_rset_ne _ _ _ _ h.1

theorem loadEntries_save (m : List (String × TaskResult))
    (hnd : (m.map Prod.fst).Nodup) :
    ∀ acc, (loadEntries (save_state m) acc).1 = true ∧
      ∀ k r, rlookup m k = some r →
        rlookup (loadEntries (save_state m) acc).2 k = some (decodeResult k r) := by
  induction m with
  | nil =>
    intro acc
    exact ⟨rfl, fun k r h => by simp at h⟩
  | cons p rest ih =>
    obtain ⟨k0, r0⟩ := p
    simp only [List.map_cons, List.nodup_cons] at hnd
    intro acc
    have hstep : loadEntries (save_state ((k0, r0) :: rest)) acc =
        loadEntries (save_state rest)
          (rset acc k0 (decodeResult k0 r0)) := by
      simp only [save_state, List.map_cons, loadEntries, TaskStatus.ofValue_value]
      rfl
    rw [hstep]
    obtain ⟨ih1, ih2⟩ := ih hnd.2 (rset acc k0 (decodeResult k0 r0))
    refine ⟨ih1, fun k r h => ?_⟩
    rw [rlookup_cons] at h
    by_cases hk : k0 = k
    · subst hk
      rw [if_pos rfl] at h
      obtain rfl : r0 = r := by exact Option.some.inj h
      have hf : rlookup (loadEntries (save_state rest) (rset acc k0 (decodeResult k0 r0))).2 k0
          = rlookup (rset acc k0 (decodeResult k0 r0)) k0 := by
        apply loadEntries_frame
        rw [save_state_keys]
        exact hnd.1
      rw [hf, rlookup_rset_self]
    · rw [if_neg hk] at h
      exact ih2 k r h

theorem loadEntries_partial (es : List (String × RawEntry))
    (hbad : ∃ e ∈ es, TaskStatus.ofValue e.2.status = none) :
    ∀ acc, (loadEntries es acc).1 = false ∧
      (loadEntries es acc).2 =
        (es.takeWhile (fun e => (TaskStatus.ofValue e.2.status).isSome)).foldl
          (fun acc e => rset acc e.1
            { task_id := e.1, status := (TaskStatus.ofValue e.2.status).getD TaskStatus.pending,
              start_time := e.2.start_time, end_time := e.2.end_time,
              attempts := e.2.attempts, output := "", error := "" }) acc := by
  induction es with
  | nil => simp at hbad
  | cons p rest ih =>
    obtain ⟨tid, e⟩ := p
    intro acc
    cases hv : TaskStatus.ofValue e.status with
    | none =>
      constructor
      · simp [loadEntries, hv]
      · simp [loadEntries, List.takeWhile_cons, hv]
    | some st =>
      have hbad' : ∃ e ∈ rest, TaskStatus.ofValue e.2.status = none := by
        obtain ⟨e', he', hbe⟩ := hbad
        rcases List.mem_cons.mp he' with h | h
        · exfalso; rw [h] at hbe; simp only at hbe; rw [hv] at hbe; exact Option.noConfusion hbe
        · exact ⟨e', h, hbe⟩
      obtain ⟨ih1, ih2⟩ := ih hbad' (rset acc tid
        { task_id := tid, status := st, start_time := e.start_time,
          end_time := e.end_time, attempts := e.attempts, output := "", error := "" })
      constructor
      · simpa [loadEntries, hv] using ih1
      · have : loadEntries ((tid, e) :: rest) acc = loadEntries rest (rset acc tid
            { task_id := tid, status := st, start_time := e.start_time,
              end_time := e.end_time, attempts := e.attempts, output := "", error := "" }) := by
          simp [loadEntries, hv]
        rw [this, ih2]
        simp [List.takeWhile_cons, hv]

/-- C5. Executing a task whose recorded result already has status `done`
returns the stored result and leaves the executor state (result map, state
file, spawn count, clock) completely unchanged: no child process is
invoked and the result is not modified. -/
theorem c5_idempotent_done (retries : Nat) (env : Nat → AttemptOutcome) (task : FlowTask)
    (st : ExecState) (r : TaskResult)
    (h : rlookup st.results task.id = some r) (hs : r.status = TaskStatus.success) :
    execute_task retries env task st = (r, st) := by
  unfold execute_task
  simp [h, hs]

/-- Stored `done` result used by the C5 witness. -/
def c5res : TaskResult :=
  { task_id := "a", status := TaskStatus.success, start_time := some 3, end_time := none,
    attempts := 1, output := "ok", error := "" }

/-- State used by the C5 witness. -/
def c5st : ExecState :=
  { results := [("a", c5res)], stateFile := .absent, spawns := 0, now := 5 }

theorem c5_witness :
    rlookup c5st.results "a" = some c5res ∧ c5res.status = TaskStatus.success ∧
      execute_task 2 (fun _ => .exit 1 "") { id := "a", run := "exit 0", depends_on := [] }
        c5st = (c5res, c5st) :=
  ⟨by decide, by decide,
    c5_idempotent_done 2 (fun _ => .exit 1 "") { id := "a", run := "exit 0", depends_on := [] }
      c5st c5res (by decide) (by decide)⟩

/-- C6. Saving the result map and loading it into a fresh executor
succeeds, and for every task id present at save time reconstructs a result
with the same status, attempts count, start time and end time. -/
theorem c6_state_roundtrip (m : List (String × TaskResult))
    (hnd : (m.map Prod.fst).Nodup) :
    (load_state (freshExec (.parsed (save_state m)))).1 = true ∧
    ∀ k r, rlookup m k = some r →
      ∃ r2, rlookup (load_state (freshExec (.parsed (save_state m)))).2.results k = some r2 ∧
        r2.status = r.status ∧ r2.attempts = r.attempts ∧
        r2.start_time = r.start_time ∧ r2.end_time = r.end_time := by
  obtain ⟨h1, h2⟩ := loadEntries_save m hnd []
  refine ⟨h1, fun k r h => ⟨decodeResult k r, ?_, rfl, rfl, rfl, rfl⟩⟩
  exact h2 k r h

/-- Result map used by the C6 witness. -/
def c6map : List (String × TaskResult) :=
  [("a", { task_id := "a", status := TaskStatus.success, start_time := some 1,
           end_time := none, attempts := 1, output := "x", error := "" }),
   ("b", { task_id := "b", status := TaskStatus.failed, start_time := some 2,
           end_time := some 3, attempts := 2, output := "", error := "exit 1" })]

theorem c6_witness :
    (c6map.map Prod.fst).Nodup ∧
    ((load_state (freshExec (.parsed (save_state c6map)))).1 = true ∧
    ∀ k r, rlookup c6map k = some r →
      ∃ r2, rlookup (load_state (freshExec (.parsed (save_state c6map)))).2.results k = some r2 ∧
        r2.status = r.status ∧ r2.attempts = r.attempts ∧
        r2.start_time = r.start_time ∧ r2.end_time = r.end_time) :=
  ⟨by decide, c6_state_roundtrip c6map (by decide)⟩

/-- Entries used by the C8 counterexample and witness: the first entry is
valid, the second carries an unrecognized status encoding. -/
def c8entries : List (String × RawEntry) :=
  [("a", { status := "done", attempts := 1, start_time := some 0, end_time := none }),
   ("b", { status := "bogus", attempts := 0, start_time := none, end_time := none })]

/-- State file used by the C8 counterexample. -/
def c8file : StateFile := .parsed c8entries

/-- C8 counterexample. Loading a state file whose second entry has an
unrecognized status reports failure, but the executor's result map is not
the map it had before the call (the first entry has already been
inserted) — contradicting "the same as if load_state had never been
called". -/
theorem c8_load_state_counterexample :
    (load_state (freshExec c8file)).1 = false ∧
    (load_state (freshExec c8file)).2.results ≠ [] := by
  decide

/-- C8 amended. `load_state` reports failure without raising for an absent,
malformed, or unrecognized-status state file, and an absent or top-level
malformed file leaves the executor state untouched; but when the parsed
content contains a bad entry, the entries strictly before the first bad one
remain inserted in the result map (the run then proceeds with that partial
map rather than with an empty state). -/
theorem c8_load_state_amended (st : ExecState) (es : List (String × RawEntry))
    (hbad : ∃ e ∈ es, TaskStatus.ofValue e.2.status = none) :
    (st.stateFile = .absent → load_state st = (false, st)) ∧
    (st.stateFile = .malformed → load_state st = (false, st)) ∧
    (st.stateFile = .parsed es →
      (load_state st).1 = false ∧
      (load_state st).2.results =
        (es.takeWhile (fun e => (TaskStatus.ofValue e.2.status).isSome)).foldl
          (fun acc e => rset acc e.1
            { task_id := e.1, status := (TaskStatus.ofValue e.2.status).getD TaskStatus.pending,
              start_time := e.2.start_time, end_time := e.2.end_time,
              attempts := e.2.attempts, output := "", error := "" }) st.results) := by
  refine ⟨fun h => by simp [load_state, h], fun h => by simp [load_state, h], fun h => ?_⟩
  obtain ⟨h1, h2⟩ := loadEntries_partial es hbad st.results
  constructor
  · simp [load_state, h, h1]
  · simp [load_state, h, h2]

theorem c8_witness :
    (∃ e ∈ c8entries, TaskStatus.ofValue e.2.status = none) ∧
    ((load_state (freshExec c8file)).1 = false ∧
      (load_state (freshExec c8file)).2.results =
        (c8entries.takeWhile (fun e => (TaskStatus.ofValue e.2.status).isSome)).foldl
          (fun acc e => rset acc e.1
            { task_id := e.1, status := (TaskStatus.ofValue e.2.status).getD TaskStatus.pending,
              start_time := e.2.start_time, end_time := e.2.end_time,
              attempts := e.2.attempts, output := "", error := "" }) []) :=
  ⟨by decide, (c8_load_state_amended (freshExec c8file) c8entries (by decide)).2.2 rfl⟩

/-! ## Attempt-loop lemmas -/

/-- Well-formedness of the result map: each entry's `task_id` field equals
its key (as maintained by all executor operations). -/
def WFResults (m : List (String × TaskResult)) : Prop :=
  ∀ q ∈ m, q.2.task_id = q.1

theorem WFResults_rset (m : List (String × TaskResult)) (k : String) (v : TaskResult)
    (hm : WFResults m) (hv : v.task_id = k) : WFResults (rset m k v) := by
  induction m with
  | nil =>
    intro q hq
    simp only [rset, List.mem_singleton] at hq
    subst hq; exact hv
  | cons p rest ih =>
    obtain ⟨k1, v1⟩ := p
    rw [rset_cons]
    have hm1 : WFResults rest := fun q hq => hm q (List.mem_cons_of_mem _ hq)
    by_cases h : k1 = k
    · rw [if_pos h]
      intro q hq
      rcases List.mem_cons.mp hq with rfl | hq
      · simpa [h] using hv
      · exact hm q (List.mem_cons_of_mem _ hq)
    · rw [if_neg h]
      intro q hq
      rcases List.mem_cons.mp hq with rfl | hq
      · exact hm _ (List.mem_cons_self _ _)
      · exact ih hm1 q hq

theorem executeLoop_basic (retries : Nat) (env : Nat → AttemptOutcome) (task : FlowTask) :
    ∀ n r st, retries + 1 - r.attempts = n → r.task_id = task.id →
      (executeLoop retries env task r st).1.task_id = task.id ∧
      (∀ k, k ≠ task.id →
        rlookup (executeLoop retries env task r st).2.results k = rlookup st.results k) ∧
      rlookup (executeLoop retries env task r st).2.results task.id =
        some (executeLoop retries env task r st).1 ∧
      (executeLoop retries env task r st).2.stateFile =
        .parsed (save_state (executeLoop retries env task r st).2.results) ∧
      (WFResults st.results → WFResults (executeLoop retries env task r st).2.results) := by
  intro n
  induction n with
  | zero =>
    intro r st hn hid
    rw [executeLoop, if_neg (by omega)]
    refine ⟨hid, fun k hk => rlookup_rset_ne _ _ _ _ hk, rlookup_rset_self _ _ _, rfl,
      fun hwf => WFResults_rset _ _ _ hwf hid⟩
  | succ n ih =>
    intro r st hn hid
    rw [executeLoop, if_pos (by omega)]
    cases henv : env st.spawns with
    | exit code out =>
      by_cases hc : code = 0
      · subst hc
        simp only [henv, if_pos rfl]
        exact ⟨hid, fun k hk => rlookup_rset_ne _ _ _ _ hk, rlookup_rset_self _ _ _, rfl,
          fun hwf => WFResults_rset _ _ _ hwf hid⟩
      · simp only [henv, if_neg hc]
        exact ih _ _ (by show retries + 1 - (r.attempts + 1) = n; omega) hid
    | timeout =>
      simp only [henv]
      exact ih _ _ (by show retries + 1 - (r.attempts + 1) = n; omega) hid
    | fault msg =>
      simp only [henv]
      exact ih _ _ (by show retries + 1 - (r.attempts + 1) = n; omega) hid

theorem executeLoop_all_fail (retries : Nat) (env : Nat → AttemptOutcome) (task : FlowTask) :
    ∀ n r st, retries + 1 - r.attempts = n →
      (∀ i, i < n → (env (st.spawns + i)).isZeroExit = false) →
      (executeLoop retries env task r st).1.status = TaskStatus.failed ∧
      (executeLoop retries env task r st).1.attempts = max (retries + 1) r.attempts ∧
      (executeLoop retries env task r st).1.end_time.isSome = true ∧
      (executeLoop retries env task r st).2.spawns = st.spawns + n := by
  intro n
  induction n with
  | zero =>
    intro r st hn _
    rw [executeLoop, if_neg (by omega)]
    exact ⟨rfl, by show r.attempts = max (retries + 1) r.attempts; omega, rfl, rfl⟩
  | succ n ih =>
    intro r st hn henv
    rw [executeLoop, if_pos (by omega)]
    have h0 : (env st.spawns).isZeroExit = false := by
      have := henv 0 (Nat.succ_pos n)
      simpa using this
    cases henv2 : env st.spawns with
    | exit code out =>
      have hc : ¬ code = 0 := by
        intro h
        rw [henv2, h] at h0
        exact Bool.noConfusion h0
      simp only [henv2, if_neg hc]
      have hrec := ih { task_id := r.task_id,
                        status := if r.attempts + 1 > 1 then TaskStatus.retrying
                                  else TaskStatus.running,
                        start_time := some st.now, end_time := r.end_time,
                        attempts := r.attempts + 1, output := out, error := "exit " ++ toString code }
        { st with now := st.now + 1, spawns := st.spawns + 1 }
        (by show retries + 1 - (r.attempts + 1) = n; omega)
        (fun i hi => by
          show (env (st.spawns + 1 + i)).isZeroExit = false
          have := henv (i + 1) (by omega)
          rw [show st.spawns + 1 + i = st.spawns + (i + 1) by omega]
          exact this)
      refine ⟨hrec.1, ?_, hrec.2.2.1, ?_⟩
      · rw [hrec.2.1]
        show max (retries + 1) (r.attempts + 1) = max (retries + 1) r.attempts
        omega
      · rw [hrec.2.2.2]
        show st.spawns + 1 + n = st.spawns + (n + 1)
        omega
    | timeout =>
      simp only [henv2]
      have hrec := ih { task_id := r.task_id,
                        status := if r.attempts + 1 > 1 then TaskStatus.retrying
                                  else TaskStatus.running,
                        start_time := some st.now, end_time := r.end_time,
                        attempts := r.attempts + 1, output := r.output, error := "timeout" }
        { st with now := st.now + 1, spawns := st.spawns + 1 }
        (by show retries + 1 - (r.attempts + 1) = n; omega)
        (fun i hi => by
          show (env (st.spawns + 1 + i)).isZeroExit = false
          have := henv (i + 1) (by omega)
          rw [show st.spawns + 1 + i = st.spawns + (i + 1) by omega]
          exact this)
      refine ⟨hrec.1, ?_, hrec.2.2.1, ?_⟩
      · rw [hrec.2.1]
        show max (retries + 1) (r.attempts + 1) = max (retries + 1) r.attempts
        omega
      · rw [hrec.2.2.2]
        show st.spawns + 1 + n = st.spawns + (n + 1)
        omega
    | fault msg =>
      simp only [henv2]
      have hrec := ih { task_id := r.task_id,
                        status := if r.attempts + 1 > 1 then TaskStatus.retrying
                                  else TaskStatus.running,
                        start_time := some st.now, end_time := r.end_time,
                        attempts := r.attempts + 1, output := r.output, error := msg }
        { st with now := st.now + 1, spawns := st.spawns + 1 }
        (by show retries + 1 - (r.attempts + 1) = n; omega)
        (fun i hi => by
          show (env (st.spawns + 1 + i)).isZeroExit = false
          have := henv (i + 1) (by omega)
          rw [show st.spawns + 1 + i = st.spawns + (i + 1) by omega]
          exact this)
      refine ⟨hrec.1, ?_, hrec.2.2.1, ?_⟩
      · rw [hrec.2.1]
        show max (retries + 1) (r.attempts + 1) = max (retries + 1) r.attempts
        omega
      · rw [hrec.2.2.2]
        show st.spawns + 1 + n = st.spawns + (n + 1)
        omega

theorem executeLoop_success (retries : Nat) (env : Nat → AttemptOutcome) (task : FlowTask) :
    ∀ n r st, retries + 1 - r.attempts = n →
      (executeLoop retries env task r st).1.status = TaskStatus.success →
      (executeLoop retries env task r st).1.end_time = r.end_time ∧
      (executeLoop retries env task r st).1.start_time.isSome = true := by
  intro n
  induction n with
  | zero =>
    intro r st hn hs
    rw [executeLoop, if_neg (by omega)] at hs ⊢
    exact absurd hs (by simp)
  | succ n ih =>
    intro r st hn hs
    rw [executeLoop, if_pos (by omega)] at hs ⊢
    cases henv : env st.spawns with
    | exit code out =>
      simp only [henv] at hs ⊢
      by_cases hc : code = 0
      · subst hc
        simp only [if_pos rfl] at hs ⊢
        exact ⟨rfl, rfl⟩
      · simp only [if_neg hc] at hs ⊢
        exact ih _ _ (by show retries + 1 - (r.attempts + 1) = n; omega) hs
    | timeout =>
      simp only [henv] at hs ⊢
      exact ih _ _ (by show retries + 1 - (r.attempts + 1) = n; omega) hs
    | fault msg =>
      simp only [henv] at hs ⊢
      exact ih _ _ (by show retries + 1 - (r.attempts + 1) = n; omega) hs

/-- C4. A fresh task (no recorded result, so attempts start at 0) whose
first `retries + 1` spawned processes all fail makes exactly `retries + 1`
attempts — one spawned child process per attempt — and ends `failed` with
`end_time` recorded, its entry stored in the result map and the full map
persisted to the state file. -/
theorem c4_retry_bound (retries : Nat) (env : Nat → AttemptOutcome) (task : FlowTask)
    (st : ExecState) (hfresh : rlookup st.results task.id = none)
    (henv : ∀ i, i < retries + 1 → (env (st.spawns + i)).isZeroExit = false) :
    (execute_task retries env task st).1.status = TaskStatus.failed ∧
    (execute_task retries env task st).1.attempts = retries + 1 ∧
    (execute_task retries env task st).1.end_time.isSome = true ∧
    (execute_task retries env task st).2.spawns = st.spawns + (retries + 1) ∧
    (execute_task retries env task st).2.stateFile =
      .parsed (save_state (execute_task retries env task st).2.results) ∧
    rlookup (execute_task retries env task st).2.results task.id =
      some (execute_task retries env task st).1 := by
  have hstep : execute_task retries env task st =
      executeLoop retries env task (TaskResult.init task.id)
        { st with results := rset st.results task.id (TaskResult.init task.id) } := by
    unfold execute_task
    simp [hfresh, rlookup_rset_self, TaskResult.init]
  rw [hstep]
  have hfail := executeLoop_all_fail retries env task (retries + 1)
    (TaskResult.init task.id)
    { st with results := rset st.results task.id (TaskResult.init task.id) }
    (by simp [TaskResult.init])
    (fun i hi => henv i hi)
  have hbasic := executeLoop_basic retries env task (retries + 1)
    (TaskResult.init task.id)
    { st with results := rset st.results task.id (TaskResult.init task.id) }
    (by simp [TaskResult.init]) (by simp [TaskResult.init])
  refine ⟨hfail.1, ?_, hfail.2.2.1, ?_, hbasic.2.2.2.1, hbasic.2.2.1⟩
  · rw [hfail.2.1]
    show max (retries + 1) 0 = retries + 1
    omega
  · rw [hfail.2.2.2]

/-- Task used by the C4 and C10 witnesses. -/
def cwTask : FlowTask := { id := "a", run := "exit 1", depends_on := [] }

theorem c4_witness :
    (rlookup (freshExec StateFile.absent).results cwTask.id = none ∧
      ∀ i, i < 0 + 1 → ((fun _ => AttemptOutcome.exit 1 "") i).isZeroExit = false) ∧
    ((execute_task 0 (fun _ => AttemptOutcome.exit 1 "") cwTask
        (freshExec StateFile.absent)).1.status = TaskStatus.failed ∧
      (execute_task 0 (fun _ => AttemptOutcome.exit 1 "") cwTask
        (freshExec StateFile.absent)).1.attempts = 0 + 1) :=
  ⟨⟨rfl, fun i _ => rfl⟩,
    by
      have h := c4_retry_bound 0 (fun _ => AttemptOutcome.exit 1 "") cwTask
        (freshExec StateFile.absent) rfl (fun i _ => rfl)
      exact ⟨h.1, h.2.1⟩⟩

/-- C10. When `execute_task` ends with status `done` it never writes
`end_time`: the returned result carries exactly the `end_time` the entry
had before the call (so `none` for a fresh task), while `start_time` is
set; and for a fresh task the persisted snapshot stores that entry with
`end_time = none`. `end_time` is assigned only on the attempts-exhausted
failure path. -/
theorem c10_no_end_time_on_success (retries : Nat) (env : Nat → AttemptOutcome)
    (task : FlowTask) (st : ExecState)
    (hsucc : (execute_task retries env task st).1.status = TaskStatus.success) :
    (execute_task retries env task st).1.end_time =
      ((rlookup st.results task.id).map TaskResult.end_time).getD none ∧
    (rlookup st.results task.id = none →
      (execute_task retries env task st).1.end_time = none ∧
      (execute_task retries env task st).1.start_time.isSome = true ∧
      (execute_task retries env task st).2.stateFile =
        .parsed (save_state (execute_task retries env task st).2.results) ∧
      rlookup (execute_task retries env task st).2.results task.id =
        some (execute_task retries env task st).1) := by
  cases hl : rlookup st.results task.id with
  | none =>
    have hstep : execute_task retries env task st =
        executeLoop retries env task (TaskResult.init task.id)
          { st with results := rset st.results task.id (TaskResult.init task.id) } := by
      unfold execute_task
      simp [hl, rlookup_rset_self, TaskResult.init]
    rw [hstep] at hsucc ⊢
    have hsu := executeLoop_success retries env task (retries + 1)
      (TaskResult.init task.id)
      { st with results := rset st.results task.id (TaskResult.init task.id) }
      (by simp [TaskResult.init]) hsucc
    have hbasic := executeLoop_basic retries env task (retries + 1)
      (TaskResult.init task.id)
      { st with results := rset st.results task.id (TaskResult.init task.id) }
      (by simp [TaskResult.init]) (by simp [TaskResult.init])
    refine ⟨?_, fun _ => ⟨?_, hsu.2, hbasic.2.2.2.1, hbasic.2.2.1⟩⟩
    · rw [hsu.1]; rfl
    · rw [hsu.1]; rfl
  | some r =>
    by_cases hr : r.status = TaskStatus.success
    · have hstep : execute_task retries env task st = (r, st) := by
        unfold execute_task
        simp [hl, hr]
      rw [hstep]
      exact ⟨rfl, fun hnone => Option.noConfusion hnone⟩
    · have hstep : execute_task retries env task st =
          executeLoop retries env task r st := by
        unfold execute_task
        simp [hl, hr]
      rw [hstep] at hsucc ⊢
      have hsu := executeLoop_success retries env task (retries + 1 - r.attempts) r st rfl hsucc
      refine ⟨?_, fun hnone => Option.noConfusion hnone⟩
      rw [hsu.1]
      rfl

theorem c10_witness :
    (execute_task 0 (fun _ => AttemptOutcome.exit 0 "out") cwTask
        (freshExec StateFile.absent)).1.status = TaskStatus.success ∧
    ((execute_task 0 (fun _ => AttemptOutcome.exit 0 "out") cwTask
        (freshExec StateFile.absent)).1.end_time =
      ((rlookup (freshExec StateFile.absent).results cwTask.id).map
        TaskResult.end_time).getD none ∧
    (rlookup (freshExec StateFile.absent).results cwTask.id = none →
      (execute_task 0 (fun _ => AttemptOutcome.exit 0 "out") cwTask
          (freshExec StateFile.absent)).1.end_time = none ∧
      (execute_task 0 (fun _ => AttemptOutcome.exit 0 "out") cwTask
          (freshExec StateFile.absent)).1.start_time.isSome = true ∧
      (execute_task 0 (fun _ => AttemptOutcome.exit 0 "out") cwTask
          (freshExec StateFile.absent)).2.stateFile =
        .parsed (save_state (execute_task 0 (fun _ => AttemptOutcome.exit 0 "out") cwTask
          (freshExec StateFile.absent)).2.results) ∧
      rlookup (execute_task 0 (fun _ => AttemptOutcome.exit 0 "out") cwTask
          (freshExec StateFile.absent)).2.results cwTask.id =
        some (execute_task 0 (fun _ => AttemptOutcome.exit 0 "out") cwTask
          (freshExec StateFile.absent)).1)) := by
  have hs : (execute_task 0 (fun _ => AttemptOutcome.exit 0 "out") cwTask
      (freshExec StateFile.absent)).1.status = TaskStatus.success := by
    simp [execute_task, executeLoop, freshExec, cwTask, TaskResult.init, rlookup_rset_self]
  exact ⟨hs, c10_no_end_time_on_success 0 (fun _ => AttemptOutcome.exit 0 "out") cwTask
    (freshExec StateFile.absent) hs⟩

/-! ## Level-executor and coordinator lemmas -/

theorem rlookup_mem (m : List (String × TaskResult)) (k : String) (r : TaskResult)
    (h : rlookup m k = some r) : (k, r) ∈ m := by
  induction m with
  | nil => simp at h
  | cons p rest ih =>
    obtain ⟨k1, v1⟩ := p
    rw [rlookup_cons] at h
    by_cases hk : k1 = k
    · rw [if_pos hk] at h
      obtain rfl : v1 = r := Option.some.inj h
      rw [hk]
      exact List.mem_cons_self _ _
    · rw [if_neg hk] at h
      exact List.mem_cons_of_mem _ (ih h)

theorem executeLoop_frame (retries : Nat) (env : Nat → AttemptOutcome) (task : FlowTask) :
    ∀ n r st k, retries + 1 - r.attempts = n → k ≠ task.id →
      rlookup (executeLoop retries env task r st).2.results k = rlookup st.results k := by
  intro n
  induction n with
  | zero =>
    intro r st k hn hk
    rw [executeLoop, if_neg (by omega)]
    exact rlookup_rset_ne _ _ _ _ hk
  | succ n ih =>
    intro r st k hn hk
    rw [executeLoop, if_pos (by omega)]
    cases henv : env st.spawns with
    | exit code out =>
      by_cases hc : code = 0
      · subst hc
        simp only [henv, if_pos rfl]
        exact rlookup_rset_ne _ _ _ _ hk
      · simp only [henv, if_neg hc]
        exact ih _ _ _ (by show retries + 1 - (r.attempts + 1) = n; omega) hk
    | timeout =>
      simp only [henv]
      exact ih _ _ _ (by show retries + 1 - (r.attempts + 1) = n; omega) hk
    | fault msg =>
      simp only [henv]
      exact ih _ _ _ (by show retries + 1 - (r.attempts + 1) = n; omega) hk

theorem execute_task_frame (retries : Nat) (env : Nat → AttemptOutcome) (task : FlowTask)
    (st : ExecState) (k : String) (hk : k ≠ task.id) :
    rlookup (execute_task retries env task st).2.results k = rlookup st.results k := by
  cases hl : rlookup st.results task.id with
  | none =>
    have hstep : execute_task retries env task st =
        executeLoop retries env task (TaskResult.init task.id)
          { st with results := rset st.results task.id (TaskResult.init task.id) } := by
      unfold execute_task
      simp [hl, rlookup_rset_self, TaskResult.init]
    rw [hstep]
    have h := executeLoop_frame retries env task (retries + 1) (TaskResult.init task.id)
      { st with results := rset st.results task.id (TaskResult.init task.id) } k
      (by simp [TaskResult.init]) hk
    rw [h]
    exact rlookup_rset_ne _ _ _ _ hk
  | some r =>
    by_cases hs : r.status = TaskStatus.success
    · have hstep : execute_task retries env task st = (r, st) := by
        unfold execute_task
        simp [hl, hs]
      rw [hstep]
    · have hstep : execute_task retries env task st =
          executeLoop retries env task r st := by
        unfold execute_task
        simp [hl, hs]
      rw [hstep]
      exact executeLoop_frame retries env task (retries + 1 - r.attempts) r st k rfl hk

theorem execute_task_wf (retries : Nat) (env : Nat → AttemptOutcome) (task : FlowTask)
    (st : ExecState) (hwf : WFResults st.results) :
    (execute_task retries env task st).1.task_id = task.id ∧
    WFResults (execute_task retries env task st).2.results := by
  cases hl : rlookup st.results task.id with
  | none =>
    have hstep : execute_task retries env task st =
        executeLoop retries env task (TaskResult.init task.id)
          { st with results := rset st.results task.id (TaskResult.init task.id) } := by
      unfold execute_task
      simp [hl, rlookup_rset_self, TaskResult.init]
    rw [hstep]
    have h := executeLoop_basic retries env task (retries + 1) (TaskResult.init task.id)
      { st with results := rset st.results task.id (TaskResult.init task.id) }
      (by simp [TaskResult.init]) (by simp [TaskResult.init])
    exact ⟨h.1, h.2.2.2.2 (WFResults_rset _ _ _ hwf rfl)⟩
  | some r =>
    have hid : r.task_id = task.id := hwf _ (rlookup_mem _ _ _ hl)
    by_cases hs : r.status = TaskStatus.success
    · have hstep : execute_task retries env task st = (r, st) := by
        unfold execute_task
        simp [hl, hs]
      rw [hstep]
      exact ⟨hid, hwf⟩
    · have hstep : execute_task retries env task st =
          executeLoop retries env task r st := by
        unfold execute_task
        simp [hl, hs]
      rw [hstep]
      have h := executeLoop_basic retries env task (retries + 1 - r.attempts) r st rfl hid
      exact ⟨h.1, h.2.2.2.2 hwf⟩

theorem execStep_fold (retries : Nat) (env : Nat → AttemptOutcome) :
    ∀ (ts : List FlowTask) (acc : List TaskResult × ExecState),
      WFResults acc.2.results →
      WFResults ((ts.foldl (execStep retries env) acc).2.results) ∧
      (∀ k, (∀ t ∈ ts, t.id ≠ k) →
        rlookup ((ts.foldl (execStep retries env) acc).2.results) k =
          rlookup acc.2.results k) ∧
      (∀ r ∈ (ts.foldl (execStep retries env) acc).1,
        r ∈ acc.1 ∨ r.task_id ∈ ts.map (fun t => t.id)) := by
  intro ts
  induction ts with
  | nil =>
    intro acc hwf
    exact ⟨hwf, fun k _ => rfl, fun r hr => Or.inl hr⟩
  | cons t rest ih =>
    intro acc hwf
    simp only [List.foldl_cons]
    have hwf1 := execute_task_wf retries env t acc.2 hwf
    obtain ⟨ihwf, ihframe, ihres⟩ := ih (execStep retries env acc t) hwf1.2
    refine ⟨ihwf, ?_, ?_⟩
    · intro k hk
      rw [ihframe k (fun u hu => hk u (List.mem_cons_of_mem _ hu))]
      exact execute_task_frame retries env t acc.2 k
        (fun hh => hk t (List.mem_cons_self _ _) hh.symm)
    · intro r hr
      rcases ihres r hr with hacc | hid
      · rcases List.mem_append.mp hacc with h1 | h1
        · exact Or.inl h1
        · right
          have : r = (execute_task retries env t acc.2).1 := by
            simpa using h1
          rw [this, hwf1.1]
          exact List.mem_cons_self _ _
      · right
        exact List.mem_cons_of_mem _ hid

theorem filterMap_rlookup_ids (m : List (String × TaskResult)) (hwf : WFResults m)
    (ts : List FlowTask) :
    ∀ r ∈ ts.filterMap (fun t => rlookup m t.id), r.task_id ∈ ts.map (fun t => t.id) := by
  intro r hr
  obtain ⟨t, ht, hlk⟩ := List.mem_filterMap.mp hr
  have := hwf _ (rlookup_mem _ _ _ hlk)
  rw [this]
  exact List.mem_map_of_mem _ ht

theorem execute_level_spec (retries : Nat) (env : Nat → AttemptOutcome)
    (ts : List FlowTask) (st : ExecState) (hwf : WFResults st.results) :
    WFResults ((execute_level retries env ts st).2.results) ∧
    (∀ k, (∀ t ∈ ts, t.id ≠ k) →
      rlookup ((execute_level retries env ts st).2.results) k = rlookup st.results k) ∧
    (∀ r ∈ (execute_level retries env ts st).1, r.task_id ∈ ts.map (fun t => t.id)) := by
  unfold execute_level
  by_cases he : (ts.filter (fun t =>
      match rlookup st.results t.id with
      | none => true
      | some r => !(r.status = TaskStatus.success))).isEmpty
  · rw [if_pos he]
    exact ⟨hwf, fun k _ => rfl, filterMap_rlookup_ids st.results hwf ts⟩
  · rw [if_neg he]
    have hsub : ∀ t ∈ ts.filter (fun t =>
        match rlookup st.results t.id with
        | none => true
        | some r => !(r.status = TaskStatus.success)), t ∈ ts :=
      fun t ht => (List.mem_filter.mp ht).1
    obtain ⟨hwf2, hframe, hres⟩ := execStep_fold retries env
      (ts.filter (fun t =>
        match rlookup st.results t.id with
        | none => true
        | some r => !(r.status = TaskStatus.success)))
      (([] : List TaskResult), st) hwf
    refine ⟨hwf2, ?_, ?_⟩
    · intro k hk
      exact hframe k (fun t ht => hk t (hsub t ht))
    · intro r hr
      rcases List.mem_append.mp hr with h1 | h1
      · rcases hres r h1 with h2 | h2
        · simp at h2
        · obtain ⟨t, ht, hid⟩ := List.mem_map.mp h2
          rw [← hid]
          exact List.mem_map_of_mem _ (hsub t ht)
      · have := filterMap_rlookup_ids _ hwf2
          (ts.filter (fun t => !((ts.filter (fun t =>
            match rlookup st.results t.id with
            | none => true
            | some r => !(r.status = TaskStatus.success))).contains t))) r h1
        obtain ⟨t, ht, hid⟩ := List.mem_map.mp this
        rw [← hid]
        exact List.mem_map_of_mem _ ((List.mem_filter.mp ht).1)

theorem taskOf_id (tasks : List FlowTask) (tid : String) : (taskOf tasks tid).id = tid := by
  unfold taskOf
  cases hf : tasks.find? (fun t => t.id == tid) with
  | none => rfl
  | some t =>
    have := List.find?_some hf
    simp only [Option.getD_some]
    exact eq_of_beq this

/-- C3. A task `B` in a level with a dependency `A` whose recorded status is
not exactly `done` (failed, pending, or absent) is marked blocked: it is
excluded from the runnable tasks, the level leaves its result-map entry
untouched, the failure count added by the level counts only results of
runnable tasks — none of which belongs to `B` — and the loop proceeds to
the remaining levels. -/
theorem c3_blocked_task (tasks : List FlowTask) (retries : Nat) (env : Nat → AttemptOutcome)
    (level : List String) (rest : List (List String)) (total : Nat) (st : ExecState)
    (B A : String) (hB : B ∈ level) (hA : A ∈ (taskOf tasks B).depends_on)
    (hAstat : ∀ r, rlookup st.results A = some r → ¬ r.status = TaskStatus.success)
    (hwf : WFResults st.results) :
    B ∈ blockedTasks tasks st.results level ∧
    B ∉ runnableTasks tasks st.results level ∧
    rlookup (runLevelStep tasks retries env level (total, st)).2.results B =
      rlookup st.results B ∧
    (runLevelStep tasks retries env level (total, st)).1 =
      total + ((execute_level retries env
        ((runnableTasks tasks st.results level).map (taskOf tasks)) st).1.countP
          (fun r => r.status = TaskStatus.failed)) ∧
    (∀ r ∈ (execute_level retries env
        ((runnableTasks tasks st.results level).map (taskOf tasks)) st).1,
      ¬ r.task_id = B) ∧
    runLevels tasks retries env (level :: rest) (total, st) =
      runLevels tasks retries env rest (runLevelStep tasks retries env level (total, st)) := by
  have hdep : ((taskOf tasks B).depends_on.any (fun dep =>
      match rlookup st.results dep with
      | none => true
      | some r => !(r.status = TaskStatus.success))) = true := by
    rw [List.any_eq_true]
    refine ⟨A, hA, ?_⟩
    cases hl : rlookup st.results A with
    | none => rfl
    | some r => simpa using hAstat r hl
  have hblocked : B ∈ blockedTasks tasks st.results level :=
    List.mem_filter.mpr ⟨hB, hdep⟩
  have hnotrun : B ∉ runnableTasks tasks st.results level := by
    intro hmem
    have h2 := (List.mem_filter.mp hmem).2
    have h3 : (blockedTasks tasks st.results level).contains B = true :=
      List.elem_iff.mpr hblocked
    rw [h3] at h2
    exact Bool.noConfusion h2
  have hids : ∀ t ∈ (runnableTasks tasks st.results level).map (taskOf tasks), t.id ≠ B := by
    intro t ht hid
    obtain ⟨tid, htid, rfl⟩ := List.mem_map.mp ht
    rw [taskOf_id] at hid
    exact hnotrun (hid ▸ htid)
  obtain ⟨hwf2, hframe, hres⟩ := execute_level_spec retries env
    ((runnableTasks tasks st.results level).map (taskOf tasks)) st hwf
  have hresB : ∀ r ∈ (execute_level retries env
      ((runnableTasks tasks st.results level).map (taskOf tasks)) st).1,
      ¬ r.task_id = B := by
    intro r hr hid
    have := hres r hr
    rw [hid] at this
    obtain ⟨t, ht, htid⟩ := List.mem_map.mp this
    exact hids t ht htid
  refine ⟨hblocked, hnotrun, ?_, ?_, hresB, rfl⟩
  · unfold runLevelStep
    by_cases he : (runnableTasks tasks st.results level).isEmpty
    · rw [if_pos he]
    · rw [if_neg he]
      exact hframe B (fun t ht hh => hids t ht hh)
  · unfold runLevelStep
    by_cases he : (runnableTasks tasks st.results level).isEmpty
    · rw [if_pos he]
      have hempty : runnableTasks tasks st.results level = [] :=
        List.isEmpty_iff.mp he
      rw [hempty]
      show total = total + (execute_level retries env [] st).1.countP
        (fun r => r.status = TaskStatus.failed)
      have : execute_level retries env [] st = ([], st) := rfl
      rw [this]
      rfl
    · rw [if_neg he]

/-- Tasks used by the C3 witness: `B` depends on `A`, no state recorded. -/
def c3tasks : List FlowTask :=
  [{ id := "B", run := "echo b", depends_on := ["A"] },
   { id := "A", run := "exit 1", depends_on := [] }]

theorem c3_witness :
    ("B" ∈ ["B"] ∧ "A" ∈ (taskOf c3tasks "B").depends_on) ∧
    ("B" ∈ blockedTasks c3tasks (freshExec StateFile.absent).results ["B"] ∧
    "B" ∉ runnableTasks c3tasks (freshExec StateFile.absent).results ["B"] ∧
    rlookup (runLevelStep c3tasks 0 (fun _ => AttemptOutcome.exit 0 "") ["B"]
        (0, freshExec StateFile.absent)).2.results "B" =
      rlookup (freshExec StateFile.absent).results "B" ∧
    (runLevelStep c3tasks 0 (fun _ => AttemptOutcome.exit 0 "") ["B"]
        (0, freshExec StateFile.absent)).1 =
      0 + ((execute_level 0 (fun _ => AttemptOutcome.exit 0 "")
        ((runnableTasks c3tasks (freshExec StateFile.absent).results ["B"]).map
          (taskOf c3tasks)) (freshExec StateFile.absent)).1.countP
            (fun r => r.status = TaskStatus.failed)) ∧
    (∀ r ∈ (execute_level 0 (fun _ => AttemptOutcome.exit 0 "")
        ((runnableTasks c3tasks (freshExec StateFile.absent).results ["B"]).map
          (taskOf c3tasks)) (freshExec StateFile.absent)).1,
      ¬ r.task_id = "B") ∧
    runLevels c3tasks 0 (fun _ => AttemptOutcome.exit 0 "") (["B"] :: [["A"]])
        (0, freshExec StateFile.absent) =
      runLevels c3tasks 0 (fun _ => AttemptOutcome.exit 0 "") [["A"]]
        (runLevelStep c3tasks 0 (fun _ => AttemptOutcome.exit 0 "") ["B"]
          (0, freshExec StateFile.absent))) :=
  ⟨⟨by decide, by decide⟩,
    c3_blocked_task c3tasks 0 (fun _ => AttemptOutcome.exit 0 "") ["B"] [["A"]] 0
      (freshExec StateFile.absent) "B" "A" (by decide) (by decide)
      (fun r h => Option.noConfusion h)
      (fun q hq => absurd hq (List.not_mem_nil q))⟩

/-! ## Structure of the built in-degree table and adjacency map -/

theorem dset_cons (k1 : String) (v1 : Int) (rest : List (String × Int)) (k : String) (v : Int) :
    dset ((k1, v1) :: rest) k v =
      if k1 = k then (k1, v) :: rest else (k1, v1) :: dset rest k v := rfl

theorem dset_absent (m : List (String × Int)) (k : String) (v : Int)
    (h : k ∉ m.map Prod.fst) : dset m k v = m ++ [(k, v)] := by
  induction m with
  | nil => rfl
  | cons p rest ih =>
    obtain ⟨k1, v1⟩ := p
    simp only [List.map_cons, List.mem_cons] at h
    push_neg at h
    rw [dset_cons, if_neg (fun hh => h.1 hh.symm), ih h.2]
    rfl

theorem dadd_keys (m : List (String × Int)) (k : String) (d : Int)
    (h : k ∈ m.map Prod.fst) : (dadd m k d).map Prod.fst = m.map Prod.fst := by
  induction m with
  | nil => simp at h
  | cons p rest ih =>
    obtain ⟨k1, v1⟩ := p
    rw [dadd_cons]
    by_cases hk : k1 = k
    · rw [if_pos hk]
      simp
    · rw [if_neg hk]
      simp only [List.map_cons, List.mem_cons] at h
      rcases h with h | h
      · exact absurd h.symm hk
      · simp [ih h]

theorem dlookup_of_mem_nodup (m : List (String × Int)) (k : String) (x : Int)
    (hnd : (m.map Prod.fst).Nodup) (hmem : (k, x) ∈ m) : dlookup m k = x := by
  induction m with
  | nil => simp at hmem
  | cons p rest ih =>
    obtain ⟨k1, v1⟩ := p
    simp only [List.map_cons, List.nodup_cons] at hnd
    rcases List.mem_cons.mp hmem with heq | hmem2
    · obtain ⟨rfl, rfl⟩ := Prod.mk.injEq k x k1 v1 ▸ heq
      simp
    · rw [dlookup_cons]
      have hne : k1 ≠ k := by
        intro hh
        subst hh
        exact hnd.1 (List.mem_map_of_mem Prod.fst hmem2)
      rw [if_neg hne]
      exact ih hnd.2 hmem2

theorem mem_of_dlookup_keys (m : List (String × Int)) (k : String)
    (h : k ∈ m.map Prod.fst) : (k, dlookup m k) ∈ m := by
  induction m with
  | nil => simp at h
  | cons p rest ih =>
    obtain ⟨k1, v1⟩ := p
    rw [dlookup_cons]
    by_cases hk : k1 = k
    · subst hk
      rw [if_pos rfl]
      exact List.mem_cons_self _ _
    · rw [if_neg hk]
      simp only [List.map_cons, List.mem_cons] at h
      rcases h with h | h
      · exact absurd h.symm hk
      · exact List.mem_cons_of_mem _ (ih h)

theorem initDeg_fold_eq (tasks : List FlowTask) :
    ∀ acc, (tasks.map (fun t => t.id)).Nodup →
      (∀ t ∈ tasks, t.id ∉ acc.map Prod.fst) →
      tasks.foldl (fun m t => dset m t.id 0) acc =
        acc ++ tasks.map (fun t => (t.id, (0 : Int))) := by
  induction tasks with
  | nil => intro acc _ _; simp
  | cons t rest ih =>
    intro acc hnd hacc
    simp only [List.map_cons, List.nodup_cons] at hnd
    simp only [List.foldl_cons]
    rw [dset_absent acc t.id 0 (hacc t (List.mem_cons_self _ _))]
    rw [ih (acc ++ [(t.id, 0)]) hnd.2 ?_]
    · simp
    · intro u hu
      simp only [List.map_append, List.mem_append]
      push_neg
      refine ⟨hacc u (List.mem_cons_of_mem _ hu), ?_⟩
      simp only [List.map_cons, List.map_nil, List.mem_singleton]
      intro hh
      exact hnd.1 (hh ▸ List.mem_map_of_mem (fun t => t.id) hu)

theorem initDeg_eq (tasks : List FlowTask) (hnd : (tasks.map (fun t => t.id)).Nodup) :
    initDeg tasks = tasks.map (fun t => (t.id, (0 : Int))) := by
  have := initDeg_fold_eq tasks [] hnd (by simp)
  simpa [initDeg] using this

theorem dadd_iter_keys (l : List String) :
    ∀ (m : List (String × Int)) (k : String), k ∈ m.map Prod.fst →
      (l.foldl (fun m _ => dadd m k 1) m).map Prod.fst = m.map Prod.fst := by
  induction l with
  | nil => intro m k _; rfl
  | cons d rest ih =>
    intro m k hk
    simp only [List.foldl_cons]
    rw [ih (dadd m k 1) k (by rw [dadd_keys m k 1 hk]; exact hk)]
    exact dadd_keys m k 1 hk

theorem buildDeg_keys (tasks : List FlowTask) (hnd : (tasks.map (fun t => t.id)).Nodup) :
    (buildDeg tasks).map Prod.fst = tasks.map (fun t => t.id) := by
  unfold buildDeg
  have hinit : (initDeg tasks).map Prod.fst = tasks.map (fun t => t.id) := by
    rw [initDeg_eq tasks hnd, List.map_map]
    rfl
  have hgen : ∀ (ts : List FlowTask) (m : List (String × Int)),
      (∀ t ∈ ts, t.id ∈ m.map Prod.fst) →
      (ts.foldl (fun m t => t.depends_on.foldl (fun m _ => dadd m t.id 1) m) m).map Prod.fst =
        m.map Prod.fst := by
    intro ts
    induction ts with
    | nil => intro m _; rfl
    | cons t rest ih =>
      intro m hm
      simp only [List.foldl_cons]
      have hk := dadd_iter_keys t.depends_on m t.id (hm t (List.mem_cons_self _ _))
      rw [ih _ (fun u hu => by rw [hk]; exact hm u (List.mem_cons_of_mem _ hu)), hk]
  rw [hgen tasks (initDeg tasks) (fun t ht => by
    rw [hinit]; exact List.mem_map_of_mem _ ht), hinit]

theorem dlookup_dadd_iter (l : List String) :
    ∀ (m : List (String × Int)) (k v : String),
      dlookup (l.foldl (fun m _ => dadd m k 1) m) v =
        dlookup m v + if k = v then (l.length : Int) else 0 := by
  induction l with
  | nil => intro m k v; simp
  | cons d rest ih =>
    intro m k v
    simp only [List.foldl_cons]
    rw [ih (dadd m k 1) k v]
    by_cases hk : k = v
    · subst hk
      rw [dlookup_dadd_self]
      simp
      omega
    · rw [dlookup_dadd_ne m k v 1 (fun hh => hk hh.symm)]
      simp [hk]

theorem dlookup_map_zero (tasks : List FlowTask) (v : String) :
    dlookup (tasks.map (fun t => (t.id, (0 : Int)))) v = 0 := by
  induction tasks with
  | nil => rfl
  | cons t rest ih =>
    simp only [List.map_cons, dlookup_cons]
    by_cases h : t.id = v
    · rw [if_pos h]
    · rw [if_neg h]; exact ih

theorem buildDeg_dlookup_fold (tasks : List FlowTask) :
    ∀ (m : List (String × Int)) (v : String),
      dlookup (tasks.foldl (fun m t => t.depends_on.foldl (fun m _ => dadd m t.id 1) m) m) v =
        dlookup m v +
          (((tasks.filter (fun t => t.id == v)).map
            (fun t => (t.depends_on.length : Int))).sum) := by
  induction tasks with
  | nil => intro m v; simp
  | cons t rest ih =>
    intro m v
    simp only [List.foldl_cons]
    rw [ih _ v, dlookup_dadd_iter t.depends_on m t.id v]
    by_cases h : t.id = v
    · rw [if_pos h]
      rw [List.filter_cons_of_pos (by simp [h])]
      simp only [List.map_cons, List.sum_cons]
      omega
    · rw [if_neg h]
      rw [List.filter_cons_of_neg (by simp [h])]
      omega

theorem filter_id_eq_single (tasks : List FlowTask) (t : FlowTask)
    (hnd : (tasks.map (fun t => t.id)).Nodup) (ht : t ∈ tasks) :
    tasks.filter (fun u => u.id == t.id) = [t] := by
  induction tasks with
  | nil => simp at ht
  | cons u rest ih =>
    simp only [List.map_cons, List.nodup_cons] at hnd
    rcases List.mem_cons.mp ht with rfl | hmem
    · have hcond : (t.id == t.id) = true := by simp
      simp only [List.filter_cons, hcond, if_true]
      have : rest.filter (fun u => u.id == t.id) = [] := by
        rw [List.filter_eq_nil_iff]
        intro a ha
        simp only [beq_iff_eq]
        intro hh
        exact hnd.1 (hh ▸ List.mem_map_of_mem (fun t => t.id) ha)
      rw [this]
    · have hcond : (u.id == t.id) = false := by
        simp only [beq_eq_false_iff_ne, ne_eq]
        intro hh
        exact hnd.1 (hh ▸ List.mem_map_of_mem (fun t => t.id) hmem)
      simp only [List.filter_cons, hcond, Bool.false_eq_true, if_false]
      exact ih hnd.2 hmem

theorem buildDeg_dlookup (tasks : List FlowTask) (t : FlowTask)
    (hnd : (tasks.map (fun t => t.id)).Nodup) (ht : t ∈ tasks) :
    dlookup (buildDeg tasks) t.id = t.depends_on.length := by
  unfold buildDeg
  rw [buildDeg_dlookup_fold tasks (initDeg tasks) t.id, initDeg_eq tasks hnd,
    dlookup_map_zero, filter_id_eq_single tasks t hnd ht]
  simp

theorem buildDeg_dlookup_notmem (tasks : List FlowTask) (v : String)
    (hv : v ∉ tasks.map (fun t => t.id)) : dlookup (buildDeg tasks) v = 0 := by
  unfold buildDeg
  rw [buildDeg_dlookup_fold tasks (initDeg tasks) v]
  have h1 : tasks.filter (fun t => t.id == v) = [] := by
    rw [List.filter_eq_nil_iff]
    intro a ha
    simp only [beq_iff_eq]
    intro hh
    exact hv (hh ▸ List.mem_map_of_mem (fun t => t.id) ha)
  rw [h1]
  have h2 : dlookup (initDeg tasks) v = 0 := by
    have hgen : ∀ (ts : List FlowTask) (acc : List (String × Int)),
        dlookup acc v = 0 → dlookup (ts.foldl (fun m t => dset m t.id 0) acc) v = 0 := by
      intro ts
      induction ts with
      | nil => intro acc h; exact h
      | cons t rest ih =>
        intro acc h
        simp only [List.foldl_cons]
        refine ih _ ?_
        have : ∀ (m : List (String × Int)), dlookup m v = 0 →
            dlookup (dset m t.id 0) v = 0 := by
          intro m
          induction m with
          | nil =>
            intro _
            simp only [dset, dlookup_cons, dlookup_nil]
            by_cases hh : t.id = v <;> simp [hh]
          | cons p r2 ih2 =>
            obtain ⟨k1, v1⟩ := p
            intro hm
            rw [dset_cons]
            by_cases hk : k1 = t.id
            · rw [if_pos hk]
              rw [dlookup_cons] at hm ⊢
              by_cases hkv : k1 = v
              · subst hkv
                rw [if_pos rfl] at hm ⊢
              · rw [if_neg hkv] at hm ⊢
                exact hm
            · rw [if_neg hk]
              rw [dlookup_cons] at hm ⊢
              by_cases hkv : k1 = v
              · rw [if_pos hkv] at hm ⊢
                exact hm
              · rw [if_neg hkv] at hm ⊢
                exact ih2 hm
        exact this acc h
    exact hgen tasks [] rfl
  rw [h2]
  simp

theorem gappend_cons (k1 : String) (l1 : List String) (rest : List (String × List String))
    (k x : String) :
    gappend ((k1, l1) :: rest) k x =
      if k1 = k then (k1, l1 ++ [x]) :: rest else (k1, l1) :: gappend rest k x := rfl

theorem glookup_gappend (m : List (String × List String)) (k x c : String) :
    glookup (gappend m k x) c =
      if k = c then glookup m c ++ [x] else glookup m c := by
  induction m with
  | nil =>
    simp only [gappend, glookup]
    by_cases h : k = c <;> simp [h]
  | cons p rest ih =>
    obtain ⟨k1, l1⟩ := p
    rw [gappend_cons]
    by_cases hk : k1 = k
    · subst hk
      rw [if_pos rfl]
      simp only [glookup]
      by_cases hc : k1 = c
      · rw [if_pos hc, if_pos hc, if_pos (hc ▸ rfl)]
      · rw [if_neg hc, if_neg hc, if_neg (fun hh => hc hh)]
    · rw [if_neg hk]
      simp only [glookup]
      by_cases hc : k1 = c
      · rw [if_pos hc, if_pos hc]
        have : ¬ k = c := fun hh => hk (hh ▸ hc.symm ▸ rfl)
        rw [if_neg this]
      · rw [if_neg hc, if_neg hc, ih]

theorem glookup_deps_fold (deps : List String) :
    ∀ (g : List (String × List String)) (tid c : String),
      glookup (deps.foldl (fun g d => gappend g d tid) g) c =
        glookup g c ++ (deps.filter (fun d => d == c)).map (fun _ => tid) := by
  induction deps with
  | nil => intro g tid c; simp
  | cons d rest ih =>
    intro g tid c
    simp only [List.foldl_cons]
    rw [ih (gappend g d tid) tid c, glookup_gappend]
    by_cases hd : d = c
    · have hcond : (d == c) = true := by simp [hd]
      simp only [List.filter_cons, hcond, if_true, if_pos hd, List.map_cons]
      simp
    · have hcond : (d == c) = false := by simp [hd]
      simp only [List.filter_cons, hcond, Bool.false_eq_true, if_false, if_neg hd]

theorem buildGraph_glookup (tasks : List FlowTask) (c : String) :
    glookup (buildGraph tasks) c =
      (tasks.map (fun t =>
        (t.depends_on.filter (fun d => d == c)).map (fun _ => t.id))).flatten := by
  unfold buildGraph
  have hgen : ∀ (ts : List FlowTask) (g : List (String × List String)),
      glookup (ts.foldl (fun g t => t.depends_on.foldl (fun g d => gappend g d t.id) g) g) c =
        glookup g c ++ (ts.map (fun t =>
          (t.depends_on.filter (fun d => d == c)).map (fun _ => t.id))).flatten := by
    intro ts
    induction ts with
    | nil => intro g; simp
    | cons t rest ih =>
      intro g
      simp only [List.foldl_cons]
      rw [ih _, glookup_deps_fold t.depends_on g t.id c]
      simp
  rw [hgen tasks []]
  rfl

theorem mem_glookup_buildGraph (tasks : List FlowTask) (c v : String) :
    v ∈ glookup (buildGraph tasks) c ↔ ∃ t ∈ tasks, t.id = v ∧ c ∈ t.depends_on := by
  rw [buildGraph_glookup]
  rw [List.mem_flatten]
  constructor
  · rintro ⟨seg, hseg, hv⟩
    obtain ⟨t, ht, rfl⟩ := List.mem_map.mp hseg
    obtain ⟨d, hd, hdv⟩ := List.mem_map.mp hv
    have := List.mem_filter.mp hd
    refine ⟨t, ht, hdv ▸ rfl, ?_⟩
    have : d = c := by simpa using this.2
    exact this ▸ (List.mem_filter.mp hd).1
  · rintro ⟨t, ht, rfl, hc⟩
    refine ⟨(t.depends_on.filter (fun d => d == c)).map (fun _ => t.id),
      List.mem_map_of_mem _ ht, ?_⟩
    apply List.mem_map.mpr
    exact ⟨c, List.mem_filter.mpr ⟨hc, by simp⟩, rfl⟩

theorem count_map_const (l : List String) (a v : String) :
    ((l.map (fun _ => a)).count v) = if a = v then l.length else 0 := by
  induction l with
  | nil => simp
  | cons d rest ih =>
    simp only [List.map_cons, List.count_cons, ih]
    by_cases h : a = v
    · simp [h]
    · simp [h, fun hh : v = a => h hh.symm]

theorem count_glookup_buildGraph (tasks : List FlowTask) (t : FlowTask) (c : String)
    (hnd : (tasks.map (fun t => t.id)).Nodup) (ht : t ∈ tasks) :
    (glookup (buildGraph tasks) c).count t.id = t.depends_on.count c := by
  rw [buildGraph_glookup]
  have hgen : ∀ (ts : List FlowTask), (ts.map (fun u => u.id)).Nodup → t ∈ ts →
      ((ts.map (fun u =>
        (u.depends_on.filter (fun d => d == c)).map (fun _ => u.id))).flatten).count t.id =
        t.depends_on.count c := by
    intro ts
    induction ts with
    | nil => intro _ h; simp at h
    | cons u rest ih =>
      intro hnd2 hmem
      simp only [List.map_cons, List.nodup_cons] at hnd2
      simp only [List.map_cons, List.flatten_cons, List.count_append]
      rcases List.mem_cons.mp hmem with rfl | hmem2
      · rw [count_map_const _ t.id t.id, if_pos rfl]
        have hz : ((rest.map (fun u =>
            (u.depends_on.filter (fun d => d == c)).map (fun _ => u.id))).flatten).count t.id
            = 0 := by
          rw [List.count_eq_zero]
          intro hmem3
          rw [List.mem_flatten] at hmem3
          obtain ⟨seg, hseg, hv⟩ := hmem3
          obtain ⟨w, hw, rfl⟩ := List.mem_map.mp hseg
          obtain ⟨d, _, hdv⟩ := List.mem_map.mp hv
          exact hnd2.1 (hdv ▸ List.mem_map_of_mem (fun t => t.id) hw)
        rw [hz]
        have hcnt : t.depends_on.count c = (t.depends_on.filter (fun d => d == c)).length := by
          simp [List.count_eq_countP, List.countP_eq_length_filter]
        omega
      · rw [count_map_const _ u.id t.id]
        have hne : ¬ u.id = t.id := by
          intro hh
          exact hnd2.1 (hh ▸ List.mem_map_of_mem (fun t => t.id) hmem2)
        rw [if_neg hne, ih hnd2.2 hmem2]
        omega
  exact hgen tasks hnd ht

theorem notmem_glookup_buildGraph (tasks : List FlowTask) (c v : String)
    (hv : v ∉ tasks.map (fun t => t.id)) : v ∉ glookup (buildGraph tasks) c := by
  intro hmem
  obtain ⟨t, ht, rfl, _⟩ := (mem_glookup_buildGraph tasks c v).mp hmem
  exact hv (List.mem_map_of_mem (fun t => t.id) ht)

theorem depsOf_eq (tasks : List FlowTask) (t : FlowTask)
    (hnd : (tasks.map (fun t => t.id)).Nodup) (ht : t ∈ tasks) :
    depsOf tasks t.id = t.depends_on := by
  unfold depsOf
  have hfind : tasks.find? (fun u => u.id == t.id) = some t := by
    induction tasks with
    | nil => simp at ht
    | cons u rest ih =>
      simp only [List.map_cons, List.nodup_cons] at hnd
      rcases List.mem_cons.mp ht with rfl | hmem
      · have hcond : (t.id == t.id) = true := by simp
        simp only [List.find?_cons, hcond, cond_true]
      · have hcond : (u.id == t.id) = false := by
          simp only [beq_eq_false_iff_ne, ne_eq]
          intro hh
          exact hnd.1 (hh ▸ List.mem_map_of_mem (fun t => t.id) hmem)
        simp only [List.find?_cons, hcond, cond_false]
        exact ih hnd.2 hmem
  rw [hfind]
  rfl

theorem depsOf_notmem (tasks : List FlowTask) (v : String)
    (hv : v ∉ tasks.map (fun t => t.id)) : depsOf tasks v = [] := by
  unfold depsOf
  have hfind : tasks.find? (fun u => u.id == v) = none := by
    rw [List.find?_eq_none]
    intro u hu
    simp only [beq_iff_eq]
    intro hh
    exact hv (hh ▸ List.mem_map_of_mem (fun t => t.id) hu)
  rw [hfind]
  rfl

theorem exists_task_of_mem_ids (tasks : List FlowTask) (v : String)
    (hv : v ∈ tasks.map (fun t => t.id)) :
    ∃ t ∈ tasks, t.id = v := by
  obtain ⟨t, ht, rfl⟩ := List.mem_map.mp hv
  exact ⟨t, ht, rfl⟩

/-! ## Counting helpers and cycle machinery -/

theorem contains_true_of_mem (l : List String) (a : String) (h : a ∈ l) :
    l.contains a = true := List.elem_iff.mpr h

theorem contains_false_of_notmem (l : List String) (a : String) (h : a ∉ l) :
    l.contains a = false := by
  rw [Bool.eq_false_iff]
  intro hh
  exact h (List.elem_iff.mp hh)

theorem countP_remove (l D : List String) (c : String) (hc : c ∉ D) :
    l.countP (fun d => !((D ++ [c]).contains d)) + l.count c =
      l.countP (fun d => !(D.contains d)) := by
  induction l with
  | nil => simp
  | cons d rest ih =>
    rw [List.countP_cons, List.countP_cons, List.count_cons]
    by_cases hd : d = c
    · subst hd
      have h1 : ((D ++ [d]).contains d) = true :=
        contains_true_of_mem _ _ (by simp)
      have h2 : (D.contains d) = false := contains_false_of_notmem _ _ hc
      simp only [h1, h2, Bool.not_true, Bool.not_false, beq_self_eq_true, if_true,
        Bool.false_eq_true, if_false]
      omega
    · have hsame : ((D ++ [c]).contains d) = (D.contains d) := by
        by_cases hdD : d ∈ D
        · rw [contains_true_of_mem _ _ hdD, contains_true_of_mem _ _ (by simp [hdD])]
        · rw [contains_false_of_notmem _ _ hdD, contains_false_of_notmem _ _ (by
            simp only [List.mem_append, List.mem_singleton]
            push_neg
            exact ⟨hdD, hd⟩)]
      have hdc : (d == c) = false := by simp [hd]
      simp only [hsame, hdc, Bool.false_eq_true, if_false]
      omega

theorem count_le_countP_notmem (l D : List String) (c : String) (hc : c ∉ D) :
    l.count c ≤ l.countP (fun d => !(D.contains d)) := by
  induction l with
  | nil => simp
  | cons d rest ih =>
    rw [List.countP_cons, List.count_cons]
    by_cases hd : d = c
    · subst hd
      rw [contains_false_of_notmem _ _ hc]
      simp only [Bool.not_false, beq_self_eq_true, if_true]
      omega
    · have hdc : (d == c) = false := by simp [hd]
      simp only [hdc, Bool.false_eq_true, if_false]
      omega

theorem countP_pos_of_mem_notmem (l D : List String) (c : String) (hcl : c ∈ l)
    (hc : c ∉ D) : 1 ≤ l.countP (fun d => !(D.contains d)) := by
  have : 0 < l.countP (fun d => !(D.contains d)) :=
    List.countP_pos_iff.mpr ⟨c, hcl, by rw [contains_false_of_notmem _ _ hc]; rfl⟩
  omega

theorem no_cycle_of_acc (E : String → String → Prop) (v : String)
    (h : Acc (Relation.TransGen E) v) : ¬ Relation.TransGen E v v := by
  induction h with
  | intro x hx ih => exact fun hc => ih x hc hc

theorem exists_cycle_of_all_pred (E : String → String → Prop) (S : List String)
    (hne : S ≠ []) (h : ∀ v ∈ S, ∃ u ∈ S, E u v) :
    ∃ w, Relation.TransGen E w w := by
  obtain ⟨v0, hv0⟩ : ∃ v, v ∈ S := by
    cases S with
    | nil => exact absurd rfl hne
    | cons a l => exact ⟨a, List.mem_cons_self a l⟩
  have hstep : ∀ v : {v // v ∈ S}, ∃ u : {v // v ∈ S}, E u.1 v.1 := by
    rintro ⟨v, hv⟩
    obtain ⟨u, hu, he⟩ := h v hv
    exact ⟨⟨u, hu⟩, he⟩
  choose g hg using hstep
  have hfs : ∀ n, E (g^[n + 1] ⟨v0, hv0⟩).1 (g^[n] ⟨v0, hv0⟩).1 := by
    intro n
    rw [Function.iterate_succ_apply' g n ⟨v0, hv0⟩]
    exact hg _
  have htrans : ∀ a b, a < b →
      Relation.TransGen E (g^[b] ⟨v0, hv0⟩).1 (g^[a] ⟨v0, hv0⟩).1 := by
    intro a b
    induction b with
    | zero => omega
    | succ b ihb =>
      intro hab
      rcases Nat.lt_succ_iff_lt_or_eq.mp hab with h1 | h1
      · exact Relation.TransGen.head (hfs b) (ihb h1)
      · subst h1
        exact Relation.TransGen.single (hfs a)
  have hmaps : ∀ i : Fin (S.toFinset.card + 1),
      (g^[(i : Nat)] ⟨v0, hv0⟩).1 ∈ S.toFinset := by
    intro i
    exact List.mem_toFinset.mpr (g^[(i : Nat)] ⟨v0, hv0⟩).2
  obtain ⟨i, _, j, _, hne2, heq⟩ :=
    Finset.exists_ne_map_eq_of_card_lt_of_maps_to
      (s := (Finset.univ : Finset (Fin (S.toFinset.card + 1)))) (t := S.toFinset)
      (by simp) (fun i _ => hmaps i)
  rcases Nat.lt_or_ge (i : Nat) (j : Nat) with hij | hij
  · refine ⟨(g^[(i : Nat)] ⟨v0, hv0⟩).1, ?_⟩
    have := htrans (i : Nat) (j : Nat) hij
    rw [← heq] at this
    exact this
  · have hij2 : (j : Nat) < (i : Nat) := by
      rcases Nat.lt_or_ge (j : Nat) (i : Nat) with h1 | h1
      · exact h1
      · exact absurd (Fin.ext (by omega)) hne2
    refine ⟨(g^[(j : Nat)] ⟨v0, hv0⟩).1, ?_⟩
    have := htrans (j : Nat) (i : Nat) hij2
    rw [heq] at this
    exact this

theorem relax_spec (ns : List String) :
    ∀ (deg : List (String × Int)) (q : List String),
      (∀ v ∈ q, dlookup deg v = 0 ∧ v ∉ ns) →
      q.Nodup →
      (∀ v, ((ns.count v : Int)) ≤ dlookup deg v) →
      (∀ v, dlookup (relax deg q ns).1 v = dlookup deg v - ns.count v) ∧
      ∃ pushed, (relax deg q ns).2 = q ++ pushed ∧ pushed.Nodup ∧
        (∀ v, v ∈ pushed ↔ v ∈ ns ∧ dlookup (relax deg q ns).1 v = 0) := by
  induction ns with
  | nil =>
    intro deg q _ _ _
    refine ⟨fun v => by simp [relax], [], by simp [relax], List.nodup_nil, fun v => by simp⟩
  | cons nb rest ih =>
    intro deg q hq hnd hcnt
    have hdegnb : (1 : Int) ≤ dlookup deg nb := by
      have h2 := hcnt nb
      have h1 : 1 ≤ (nb :: rest).count nb := by
        simp [List.count_cons]
      omega
    have hd1self : dlookup (dadd deg nb (-1)) nb = dlookup deg nb - 1 := by
      rw [dlookup_dadd_self]; omega
    have hd1ne : ∀ v, v ≠ nb → dlookup (dadd deg nb (-1)) v = dlookup deg v :=
      fun v hv => dlookup_dadd_ne deg nb v (-1) hv
    have hcount_nb : (nb :: rest).count nb = rest.count nb + 1 := by
      simp [List.count_cons]
    have hcount_ne : ∀ v, v ≠ nb → (nb :: rest).count v = rest.count v := by
      intro v hv
      rw [List.count_cons]
      have hb : (nb == v) = false := by
        rw [beq_eq_false_iff_ne]
        exact fun hh => hv hh.symm
      rw [hb]
      simp
    have hcnt1 : ∀ v, ((rest.count v : Int)) ≤ dlookup (dadd deg nb (-1)) v := by
      intro v
      by_cases hv : v = nb
      · rw [hv, hd1self]
        have h2 := hcnt nb
        rw [hcount_nb] at h2
        push_cast at h2 ⊢
        omega
      · rw [hd1ne v hv]
        have h2 := hcnt v
        rw [hcount_ne v hv] at h2
        exact h2
    simp only [relax]
    by_cases hpush : dlookup (dadd deg nb (-1)) nb = 0
    · rw [if_pos hpush]
      have hnbrest : nb ∉ rest := by
        have h0 := hcnt1 nb
        rw [hpush] at h0
        have : rest.count nb = 0 := by omega
        exact List.count_eq_zero.mp this
      have hq1 : ∀ v ∈ q ++ [nb], dlookup (dadd deg nb (-1)) v = 0 ∧ v ∉ rest := by
        intro v hv
        rcases List.mem_append.mp hv with hv | hv
        · obtain ⟨h1, h2⟩ := hq v hv
          simp only [List.mem_cons] at h2
          push_neg at h2
          exact ⟨by rw [hd1ne v h2.1]; exact h1, h2.2⟩
        · have hveq : v = nb := by simpa using hv
          rw [hveq]
          exact ⟨hpush, hnbrest⟩
      have hnbq : nb ∉ q := by
        intro hmem
        exact (hq nb hmem).2 (List.mem_cons_self _ _)
      have hnd1 : (q ++ [nb]).Nodup := by
        rw [List.nodup_append]
        exact ⟨hnd, List.nodup_singleton nb, by simpa using hnbq⟩
      obtain ⟨ihlook, pushed2, ihq, ihnd, ihiff⟩ :=
        ih (dadd deg nb (-1)) (q ++ [nb]) hq1 hnd1 hcnt1
      have hfinal : ∀ v, dlookup (relax (dadd deg nb (-1)) (q ++ [nb]) rest).1 v =
          dlookup deg v - (nb :: rest).count v := by
        intro v
        rw [ihlook v]
        by_cases hv : v = nb
        · rw [hv, hd1self, hcount_nb]
          push_cast
          omega
        · rw [hd1ne v hv, hcount_ne v hv]
      refine ⟨hfinal, nb :: pushed2, ?_, ?_, ?_⟩
      · rw [ihq, List.append_assoc]
        rfl
      · rw [List.nodup_cons]
        refine ⟨fun hmem => ?_, ihnd⟩
        exact hnbrest ((ihiff nb).mp hmem).1
      · intro v
        constructor
        · intro hmem
          rcases List.mem_cons.mp hmem with hveq | hmem2
          · refine ⟨by rw [hveq]; exact List.mem_cons_self _ _, ?_⟩
            rw [hfinal v, hveq, hcount_nb]
            have hc0 : rest.count nb = 0 := List.count_eq_zero.mpr hnbrest
            rw [hc0]
            push_cast
            omega
          · obtain ⟨h1, h2⟩ := (ihiff v).mp hmem2
            exact ⟨List.mem_cons_of_mem _ h1, h2⟩
        · rintro ⟨hmem, hzero⟩
          rcases List.mem_cons.mp hmem with hveq | hmem2
          · rw [hveq]
            exact List.mem_cons_self _ _
          · exact List.mem_cons_of_mem _ ((ihiff v).mpr ⟨hmem2, hzero⟩)
    · rw [if_neg hpush]
      have hq1 : ∀ v ∈ q, dlookup (dadd deg nb (-1)) v = 0 ∧ v ∉ rest := by
        intro v hv
        obtain ⟨h1, h2⟩ := hq v hv
        simp only [List.mem_cons] at h2
        push_neg at h2
        exact ⟨by rw [hd1ne v h2.1]; exact h1, h2.2⟩
      obtain ⟨ihlook, pushed2, ihq, ihnd, ihiff⟩ :=
        ih (dadd deg nb (-1)) q hq1 hnd hcnt1
      have hfinal : ∀ v, dlookup (relax (dadd deg nb (-1)) q rest).1 v =
          dlookup deg v - (nb :: rest).count v := by
        intro v
        rw [ihlook v]
        by_cases hv : v = nb
        · rw [hv, hd1self, hcount_nb]
          push_cast
          omega
        · rw [hd1ne v hv, hcount_ne v hv]
      refine ⟨hfinal, pushed2, ihq, ihnd, ?_⟩
      intro v
      constructor
      · intro hmem
        obtain ⟨h1, h2⟩ := (ihiff v).mp hmem
        exact ⟨List.mem_cons_of_mem _ h1, h2⟩
      · rintro ⟨hmem, hzero⟩
        rcases List.mem_cons.mp hmem with hveq | hmem2
        · by_cases hvrest : v ∈ rest
          · exact (ihiff v).mpr ⟨hvrest, hzero⟩
          · exfalso
            have hc0 : rest.count v = 0 := List.count_eq_zero.mpr hvrest
            rw [ihlook v, hc0] at hzero
            simp only [Nat.cast_zero, sub_zero] at hzero
            rw [hveq] at hzero
            exact hpush hzero
        · exact (ihiff v).mpr ⟨hmem2, hzero⟩

/-- Loop invariant of Kahn's algorithm in `detect_cycles`. `D` is the list
of nodes dequeued (processed) so far. -/
structure KahnInv (tasks : List FlowTask) (D : List String)
    (deg : List (String × Int)) (queue : List String) : Prop where
  deg_ids : ∀ v ∈ tasks.map (fun t => t.id),
    dlookup deg v = ((depsOf tasks v).countP (fun d => !(D.contains d)) : Int)
  deg_out : ∀ v, v ∉ tasks.map (fun t => t.id) → dlookup deg v = 0
  q_nodup : queue.Nodup
  d_nodup : D.Nodup
  q_mem : ∀ v ∈ queue, v ∈ tasks.map (fun t => t.id) ∧ v ∉ D ∧ dlookup deg v = 0
  d_mem : ∀ v ∈ D, v ∈ tasks.map (fun t => t.id) ∧ dlookup deg v = 0
  q_complete : ∀ v ∈ tasks.map (fun t => t.id), v ∉ D → dlookup deg v = 0 → v ∈ queue
  q_acc : ∀ v ∈ queue, Acc (dependsEdge tasks) v
  d_acc : ∀ v ∈ D, Acc (dependsEdge tasks) v

/-- What the remainder of the Kahn loop computes from a state satisfying
the invariant: a duplicate-free list `L` of further processed ids, all
accessible in the dependency graph, such that any id left unprocessed has
a dependency that is also left unprocessed. -/
def KahnOut (tasks : List FlowTask) (D : List String)
    (deg : List (String × Int)) (queue : List String) : Prop :=
  ∃ L : List String,
    (∀ c, kahnLoop (buildGraph tasks) deg queue c = c + L.length) ∧
    (D ++ L).Nodup ∧
    (∀ v ∈ L, v ∈ tasks.map (fun t => t.id)) ∧
    (∀ v ∈ L, Acc (dependsEdge tasks) v) ∧
    (∀ v ∈ tasks.map (fun t => t.id), v ∉ D ++ L →
      ∃ d, d ∈ depsOf tasks v ∧ d ∉ D ++ L)

theorem kahn_master_base (tasks : List FlowTask) (D : List String)
    (deg : List (String × Int)) (inv : KahnInv tasks D deg []) :
    KahnOut tasks D deg [] := by
  refine ⟨[], fun c => by rw [kahnLoop]; rfl, by simpa using inv.d_nodup,
    fun v hv => absurd hv (List.not_mem_nil v), fun v hv => absurd hv (List.not_mem_nil v),
    ?_⟩
  intro v hv hvd
  rw [List.append_nil] at hvd
  have hdeg : dlookup deg v ≠ 0 := by
    intro h0
    exact absurd (inv.q_complete v hv hvd h0) (List.not_mem_nil v)
  rw [inv.deg_ids v hv] at hdeg
  have hpos : 0 < (depsOf tasks v).countP (fun d => !(D.contains d)) := by
    by_contra hc
    push_neg at hc
    have : (depsOf tasks v).countP (fun d => !(D.contains d)) = 0 := by omega
    rw [this] at hdeg
    exact hdeg (by simp)
  obtain ⟨d, hd, hpred⟩ := List.countP_pos_iff.mp hpos
  refine ⟨d, hd, ?_⟩
  intro hdD
  rw [List.append_nil] at hdD
  rw [contains_true_of_mem D d hdD] at hpred
  exact Bool.noConfusion hpred

theorem kahn_master_step (tasks : List FlowTask)
    (hnd : (tasks.map (fun t => t.id)).Nodup)
    (D : List String) (deg : List (String × Int)) (c : String) (rest : List String)
    (inv : KahnInv tasks D deg (c :: rest)) :
    KahnInv tasks (D ++ [c]) (relax deg rest (glookup (buildGraph tasks) c)).1
      (relax deg rest (glookup (buildGraph tasks) c)).2 := by
  obtain ⟨hc_ids, hc_nD, hc_deg0⟩ := inv.q_mem c (List.mem_cons_self _ _)
  have hc_nrest : c ∉ rest := by
    have := inv.q_nodup
    rw [List.nodup_cons] at this
    exact this.1
  have key1 : ∀ v ∈ tasks.map (fun t => t.id),
      (glookup (buildGraph tasks) c).count v = (depsOf tasks v).count c := by
    intro v hv
    obtain ⟨t, ht, rfl⟩ := exists_task_of_mem_ids tasks v hv
    rw [count_glookup_buildGraph tasks t c hnd ht, depsOf_eq tasks t hnd ht]
  have key2 : ∀ v, v ∉ tasks.map (fun t => t.id) →
      (glookup (buildGraph tasks) c).count v = 0 :=
    fun v hv => List.count_eq_zero.mpr (notmem_glookup_buildGraph tasks c v hv)
  have noNs : ∀ v, dlookup deg v = 0 → v ∉ glookup (buildGraph tasks) c := by
    intro v hdeg hmem
    obtain ⟨t, ht, rfl, hcdep⟩ := (mem_glookup_buildGraph tasks c v).mp hmem
    have hvids : t.id ∈ tasks.map (fun t => t.id) := List.mem_map_of_mem _ ht
    have h1 := inv.deg_ids t.id hvids
    rw [hdeg] at h1
    have hcdeps : c ∈ depsOf tasks t.id := by
      rw [depsOf_eq tasks t hnd ht]
      exact hcdep
    have := countP_pos_of_mem_notmem (depsOf tasks t.id) D c hcdeps hc_nD
    omega
  have hqpre : ∀ v ∈ rest, dlookup deg v = 0 ∧ v ∉ glookup (buildGraph tasks) c := by
    intro v hv
    have h0 := (inv.q_mem v (List.mem_cons_of_mem _ hv)).2.2
    exact ⟨h0, noNs v h0⟩
  have hndrest : rest.Nodup := by
    have := inv.q_nodup
    rw [List.nodup_cons] at this
    exact this.2
  have hcnt : ∀ v, (((glookup (buildGraph tasks) c).count v : Int)) ≤ dlookup deg v := by
    intro v
    by_cases hv : v ∈ tasks.map (fun t => t.id)
    · rw [key1 v hv, inv.deg_ids v hv]
      have := count_le_countP_notmem (depsOf tasks v) D c hc_nD
      omega
    · rw [key2 v hv, inv.deg_out v hv]
      simp
  obtain ⟨hlook, pushed, hq2, hpnd, hpiff⟩ :=
    relax_spec (glookup (buildGraph tasks) c) deg rest hqpre hndrest hcnt
  have hpush_mem : ∀ v ∈ pushed, v ∈ tasks.map (fun t => t.id) := by
    intro v hv
    obtain ⟨hns, _⟩ := (hpiff v).mp hv
    obtain ⟨t, ht, rfl, _⟩ := (mem_glookup_buildGraph tasks c v).mp hns
    exact List.mem_map_of_mem _ ht
  have hpush_degpos : ∀ v ∈ pushed, 1 ≤ dlookup deg v := by
    intro v hv
    obtain ⟨hns, hz⟩ := (hpiff v).mp hv
    have h1 := hlook v
    rw [hz] at h1
    have h2 : 0 < (glookup (buildGraph tasks) c).count v := List.count_pos_iff.mpr hns
    omega
  constructor
  · intro v hv
    rw [hlook v]
    rw [inv.deg_ids v hv]
    have hrem := countP_remove (depsOf tasks v) D c hc_nD
    rw [key1 v hv]
    omega
  · intro v hv
    rw [hlook v, inv.deg_out v hv, key2 v hv]
    simp
  · rw [hq2, List.nodup_append]
    refine ⟨hndrest, hpnd, ?_⟩
    intro v hv hv2
    exact (hqpre v hv).2 ((hpiff v).mp hv2).1
  · rw [List.nodup_append]
    exact ⟨inv.d_nodup, List.nodup_singleton c, by simpa using hc_nD⟩
  · rw [hq2]
    intro v hv
    rcases List.mem_append.mp hv with hv | hv
    · obtain ⟨h1, h2, h3⟩ := inv.q_mem v (List.mem_cons_of_mem _ hv)
      refine ⟨h1, ?_, ?_⟩
      · simp only [List.mem_append, List.mem_singleton]
        push_neg
        exact ⟨h2, fun hh => hc_nrest (hh ▸ hv)⟩
      · rw [hlook v]
        have : (glookup (buildGraph tasks) c).count v = 0 :=
          List.count_eq_zero.mpr (hqpre v hv).2
        rw [this, h3]
        simp
    · obtain ⟨hns, hz⟩ := (hpiff v).mp hv
      refine ⟨hpush_mem v hv, ?_, hz⟩
      have hpos := hpush_degpos v hv
      simp only [List.mem_append, List.mem_singleton]
      push_neg
      constructor
      · intro hvD
        have := (inv.d_mem v hvD).2
        omega
      · intro hh
        rw [hh] at hpos
        omega
  · intro v hv
    rcases List.mem_append.mp hv with hv | hv
    · obtain ⟨h1, h2⟩ := inv.d_mem v hv
      refine ⟨h1, ?_⟩
      rw [hlook v]
      have : (glookup (buildGraph tasks) c).count v = 0 :=
        List.count_eq_zero.mpr (noNs v h2)
      rw [this, h2]
      simp
    · have hvc : v = c := by simpa using hv
      rw [hvc]
      refine ⟨hc_ids, ?_⟩
      rw [hlook c]
      have : (glookup (buildGraph tasks) c).count c = 0 :=
        List.count_eq_zero.mpr (noNs c hc_deg0)
      rw [this, hc_deg0]
      simp
  · intro v hv hvD hvdeg
    rw [hq2]
    rw [List.mem_append, List.mem_singleton] at hvD
    push_neg at hvD
    by_cases hns : v ∈ glookup (buildGraph tasks) c
    · exact List.mem_append.mpr (Or.inr ((hpiff v).mpr ⟨hns, hvdeg⟩))
    · have hc0 : (glookup (buildGraph tasks) c).count v = 0 := List.count_eq_zero.mpr hns
      have h1 := hlook v
      rw [hvdeg, hc0] at h1
      have hdeg0 : dlookup deg v = 0 := by omega
      have := inv.q_complete v hv hvD.1 hdeg0
      rcases List.mem_cons.mp this with hh | hh
      · exact absurd hh hvD.2
      · exact List.mem_append.mpr (Or.inl hh)
  · rw [hq2]
    intro v hv
    rcases List.mem_append.mp hv with hv | hv
    · exact inv.q_acc v (List.mem_cons_of_mem _ hv)
    · obtain ⟨hns, hz⟩ := (hpiff v).mp hv
      have hvids := hpush_mem v hv
      constructor
      intro u hu
      obtain ⟨t, ht, htid, hudep⟩ := hu
      have hdeps : depsOf tasks v = t.depends_on := by
        rw [← htid]
        exact depsOf_eq tasks t hnd ht
      have hudeps : u ∈ depsOf tasks v := hdeps ▸ hudep
      have hcount0 : (depsOf tasks v).countP
          (fun d => !((D ++ [c]).contains d)) = 0 := by
        have h1 := hlook v
        rw [hz] at h1
        have h2 := inv.deg_ids v hvids
        have h3 := countP_remove (depsOf tasks v) D c hc_nD
        rw [key1 v hvids] at h1
        omega
      have huD : u ∈ D ++ [c] := by
        by_contra huD
        have := countP_pos_of_mem_notmem (depsOf tasks v) (D ++ [c]) u hudeps huD
        omega
      rcases List.mem_append.mp huD with h | h
      · exact inv.d_acc u h
      · have : u = c := by simpa using h
        rw [this]
        exact inv.q_acc c (List.mem_cons_self _ _)
  · intro v hv
    rcases List.mem_append.mp hv with hv | hv
    · exact inv.d_acc v hv
    · have : v = c := by simpa using hv
      rw [this]
      exact inv.q_acc c (List.mem_cons_self _ _)

theorem kahn_master (tasks : List FlowTask)
    (hnd : (tasks.map (fun t => t.id)).Nodup) :
    ∀ n D deg queue, queue.length + degSum deg ≤ n →
      KahnInv tasks D deg queue → KahnOut tasks D deg queue := by
  intro n
  induction n with
  | zero =>
    intro D deg queue hm inv
    cases queue with
    | nil => exact kahn_master_base tasks D deg inv
    | cons c rest => simp at hm
  | succ n ih =>
    intro D deg queue hm inv
    cases queue with
    | nil => exact kahn_master_base tasks D deg inv
    | cons c rest =>
      have inv2 := kahn_master_step tasks hnd D deg c rest inv
      have hm2 : (relax deg rest (glookup (buildGraph tasks) c)).2.length +
          degSum (relax deg rest (glookup (buildGraph tasks) c)).1 ≤ n := by
        have := relax_measure (glookup (buildGraph tasks) c) deg rest
        simp only [List.length_cons] at hm
        omega
      obtain ⟨L, hcount, hnodup, hids, hacc, hstall⟩ := ih (D ++ [c])
        (relax deg rest (glookup (buildGraph tasks) c)).1
        (relax deg rest (glookup (buildGraph tasks) c)).2 hm2 inv2
      refine ⟨c :: L, ?_, ?_, ?_, ?_, ?_⟩
      · intro p
        rw [kahnLoop]
        rw [hcount (p + 1)]
        simp only [List.length_cons]
        omega
      · have : D ++ c :: L = (D ++ [c]) ++ L := by simp
        rw [this]
        exact hnodup
      · intro v hv
        rcases List.mem_cons.mp hv with hvc | hv2
        · rw [hvc]
          exact (inv.q_mem c (List.mem_cons_self _ _)).1
        · exact hids v hv2
      · intro v hv
        rcases List.mem_cons.mp hv with hvc | hv2
        · rw [hvc]
          exact inv.q_acc c (List.mem_cons_self _ _)
        · exact hacc v hv2
      · intro v hv hvmem
        have hvmem2 : v ∉ (D ++ [c]) ++ L := by
          intro hh
          apply hvmem
          rw [show D ++ c :: L = (D ++ [c]) ++ L by simp]
          exact hh
        obtain ⟨d, hd1, hd2⟩ := hstall v hv hvmem2
        refine ⟨d, hd1, ?_⟩
        intro hh
        apply hd2
        rw [show D ++ c :: L = (D ++ [c]) ++ L by simp] at hh
        exact hh

theorem kahn_initial (tasks : List FlowTask)
    (hnd : (tasks.map (fun t => t.id)).Nodup) :
    KahnInv tasks [] (buildDeg tasks)
      (((buildDeg tasks).filter (fun p => p.2 == 0)).map (fun p => p.1)) := by
  have hkeys : (buildDeg tasks).map Prod.fst = tasks.map (fun t => t.id) :=
    buildDeg_keys tasks hnd
  have hkeysnd : ((buildDeg tasks).map Prod.fst).Nodup := by rw [hkeys]; exact hnd
  have hdeg_ids : ∀ v ∈ tasks.map (fun t => t.id),
      dlookup (buildDeg tasks) v = ((depsOf tasks v).length : Int) := by
    intro v hv
    obtain ⟨t, ht, rfl⟩ := exists_task_of_mem_ids tasks v hv
    rw [buildDeg_dlookup tasks t hnd ht, depsOf_eq tasks t hnd ht]
  have hqmem : ∀ v, v ∈ ((buildDeg tasks).filter (fun p => p.2 == 0)).map (fun p => p.1) ↔
      v ∈ tasks.map (fun t => t.id) ∧ dlookup (buildDeg tasks) v = 0 := by
    intro v
    constructor
    · intro hv
      obtain ⟨p, hp, rfl⟩ := List.mem_map.mp hv
      obtain ⟨hp1, hp2⟩ := List.mem_filter.mp hp
      obtain ⟨k, x⟩ := p
      have hx : x = 0 := by simpa using hp2
      have hlk : dlookup (buildDeg tasks) k = x :=
        dlookup_of_mem_nodup (buildDeg tasks) k x hkeysnd hp1
      refine ⟨?_, by rw [hlk, hx]⟩
      rw [← hkeys]
      exact List.mem_map_of_mem Prod.fst hp1
    · rintro ⟨hv, hdeg⟩
      have hmem : (v, dlookup (buildDeg tasks) v) ∈ buildDeg tasks := by
        apply mem_of_dlookup_keys
        rw [hkeys]
        exact hv
      rw [hdeg] at hmem
      have : (v, (0 : Int)) ∈ (buildDeg tasks).filter (fun p => p.2 == 0) :=
        List.mem_filter.mpr ⟨hmem, by simp⟩
      exact List.mem_map.mpr ⟨(v, 0), this, rfl⟩
  constructor
  · intro v hv
    rw [hdeg_ids v hv]
    have : (depsOf tasks v).countP (fun d => !(([] : List String).contains d)) =
        (depsOf tasks v).length := by
      simp
    rw [this]
  · exact fun v hv => buildDeg_dlookup_notmem tasks v hv
  · have hsub : List.Sublist
        (((buildDeg tasks).filter (fun p => p.2 == 0)).map (fun p => p.1))
        ((buildDeg tasks).map (fun p => p.1)) :=
      List.Sublist.map _ (List.filter_sublist _)
    have : ((buildDeg tasks).map (fun p => p.1)).Nodup := hkeysnd
    exact this.sublist hsub
  · exact List.nodup_nil
  · intro v hv
    obtain ⟨h1, h2⟩ := (hqmem v).mp hv
    exact ⟨h1, List.not_mem_nil v, h2⟩
  · intro v hv
    exact absurd hv (List.not_mem_nil v)
  · intro v hv _ hdeg
    exact (hqmem v).mpr ⟨hv, hdeg⟩
  · intro v hv
    obtain ⟨h1, h2⟩ := (hqmem v).mp hv
    constructor
    intro u hu
    obtain ⟨t, ht, htid, hudep⟩ := hu
    exfalso
    have hdeps : depsOf tasks v = t.depends_on := by
      rw [← htid]
      exact depsOf_eq tasks t hnd ht
    have : (depsOf tasks v).length = 0 := by
      have := hdeg_ids v h1
      omega
    rw [hdeps] at this
    rw [List.length_eq_zero] at this
    rw [this] at hudep
    exact absurd hudep (List.not_mem_nil u)
  · intro v hv
    exact absurd hv (List.not_mem_nil v)

theorem detect_cycles_iff (tasks : List FlowTask)
    (hnd : (tasks.map (fun t => t.id)).Nodup)
    (hval : ∀ t ∈ tasks, ∀ d ∈ t.depends_on, d ∈ tasks.map (fun t => t.id)) :
    detect_cycles tasks = true ↔ HasCycle tasks := by
  obtain ⟨L, hcount, hnodup, hids, hacc, hstall⟩ :=
    kahn_master tasks hnd
      ((((buildDeg tasks).filter (fun p => p.2 == 0)).map (fun p => p.1)).length +
        degSum (buildDeg tasks))
      [] (buildDeg tasks)
      (((buildDeg tasks).filter (fun p => p.2 == 0)).map (fun p => p.1))
      le_rfl (kahn_initial tasks hnd)
  have hL : kahnLoop (buildGraph tasks) (buildDeg tasks)
      (((buildDeg tasks).filter (fun p => p.2 == 0)).map (fun p => p.1)) 0 = L.length := by
    rw [hcount 0]
    omega
  have hdet : detect_cycles tasks = true ↔ L.length ≠ tasks.length := by
    have hrfl : detect_cycles tasks =
        decide (kahnLoop (buildGraph tasks) (buildDeg tasks)
          (((buildDeg tasks).filter (fun p => p.2 == 0)).map (fun p => p.1)) 0 ≠
            tasks.length) := rfl
    rw [hrfl, hL]
    simp
  have hLnodup : L.Nodup := by simpa using hnodup
  have hstall2 : ∀ v ∈ tasks.map (fun t => t.id), v ∉ L →
      ∃ d, d ∈ depsOf tasks v ∧ d ∉ L := by
    intro v hv hvL
    obtain ⟨d, hd1, hd2⟩ := hstall v hv (by simpa using hvL)
    exact ⟨d, hd1, by simpa using hd2⟩
  have hlen_ids : (tasks.map (fun t => t.id)).length = tasks.length :=
    List.length_map tasks (fun t => t.id)
  rw [hdet]
  constructor
  · intro hne
    have hsubperm : List.Subperm L (tasks.map (fun t => t.id)) :=
      List.Nodup.subperm hLnodup (fun v hv => hids v hv)
    have hle : L.length ≤ tasks.length := by
      have := List.Subperm.length_le hsubperm
      omega
    have hlt : L.length < tasks.length := by omega
    have hmiss : ∃ v ∈ tasks.map (fun t => t.id), v ∉ L := by
      by_contra hcon
      push_neg at hcon
      have hsub2 : List.Subperm (tasks.map (fun t => t.id)) L :=
        List.Nodup.subperm hnd hcon
      have := List.Subperm.length_le hsub2
      omega
    obtain ⟨v0, hv0ids, hv0L⟩ := hmiss
    have hcyc := exists_cycle_of_all_pred (dependsEdge tasks)
      ((tasks.map (fun t => t.id)).filter (fun v => !(L.contains v)))
      (by
        intro hnil
        have : v0 ∈ (tasks.map (fun t => t.id)).filter (fun v => !(L.contains v)) :=
          List.mem_filter.mpr ⟨hv0ids, by rw [contains_false_of_notmem _ _ hv0L]; rfl⟩
        rw [hnil] at this
        exact absurd this (List.not_mem_nil v0))
      (by
        intro v hv
        obtain ⟨hvids, hvpred⟩ := List.mem_filter.mp hv
        have hvL : v ∉ L := by
          intro hh
          rw [contains_true_of_mem _ _ hh] at hvpred
          exact Bool.noConfusion hvpred
        obtain ⟨d, hd1, hd2⟩ := hstall2 v hvids hvL
        obtain ⟨t, ht, rfl⟩ := exists_task_of_mem_ids tasks v hvids
        have hdeps : depsOf tasks t.id = t.depends_on := depsOf_eq tasks t hnd ht
        have hdid : d ∈ tasks.map (fun t => t.id) := by
          apply hval t ht
          rw [← hdeps]
          exact hd1
        refine ⟨d, List.mem_filter.mpr ⟨hdid, by rw [contains_false_of_notmem _ _ hd2]; rfl⟩, ?_⟩
        exact ⟨t, ht, rfl, hdeps ▸ hd1⟩)
    exact hcyc
  · intro hcyc
    intro hlen
    obtain ⟨w, hw⟩ := hcyc
    have hw_ids : w ∈ tasks.map (fun t => t.id) := by
      cases hw with
      | single h =>
        obtain ⟨t, ht, htid, _⟩ := h
        rw [← htid]
        exact List.mem_map_of_mem _ ht
      | tail h1 h2 =>
        obtain ⟨t, ht, htid, _⟩ := h2
        rw [← htid]
        exact List.mem_map_of_mem _ ht
    have hsubperm : List.Subperm L (tasks.map (fun t => t.id)) :=
      List.Nodup.subperm hLnodup (fun v hv => hids v hv)
    have hperm : List.Perm L (tasks.map (fun t => t.id)) :=
      List.Subperm.perm_of_length_le hsubperm (by omega)
    have hwL : w ∈ L := (hperm.mem_iff).mpr hw_ids
    exact no_cycle_of_acc (dependsEdge tasks) w ((hacc w hwL).transGen) hw

theorem no_cycle_of_no_deps (tasks : List FlowTask)
    (h : ∀ t ∈ tasks, t.depends_on = []) : ¬ HasCycle tasks := by
  rintro ⟨w, hw⟩
  cases hw with
  | single h1 =>
    obtain ⟨t, ht, _, hu⟩ := h1
    rw [h t ht] at hu
    exact absurd hu (List.not_mem_nil _)
  | tail h1 h2 =>
    obtain ⟨t, ht, _, hu⟩ := h2
    rw [h t ht] at hu
    exact absurd hu (List.not_mem_nil _)

/-- Task list with a duplicated id used against the universally quantified
form of the cycle claim: two distinct descriptor objects share the id
`"a"`, no dependencies at all. -/
def c2dup : List FlowTask :=
  [{ id := "a", run := "echo 1", depends_on := [] },
   { id := "a", run := "echo 2", depends_on := [] }]

/-- C2 counterexample. On a task list with a duplicated id (and no
dependency edges whatsoever) `detect_cycles` reports a cycle — Kahn's
algorithm processes one node while `len(tasks)` is two — although the
dependency graph over the tasks has no cycle. So "for every list of tasks,
detect_cycles returns true iff the graph contains a cycle" is false as
stated. -/
theorem c2_detect_cycles_counterexample :
    detect_cycles c2dup = true ∧ ¬ HasCycle c2dup := by
  constructor
  · have h4 : kahnLoop (buildGraph c2dup) (buildDeg c2dup) ["a"] 0 = 1 := by
      rw [kahnLoop]
      simp only [relax, glookup]
      rw [kahnLoop]
    have hrfl : detect_cycles c2dup =
        decide (kahnLoop (buildGraph c2dup) (buildDeg c2dup)
          (((buildDeg c2dup).filter (fun p => p.2 == 0)).map (fun p => p.1)) 0 ≠
            c2dup.length) := rfl
    have h3 : ((buildDeg c2dup).filter (fun p => p.2 == 0)).map (fun p => p.1) = ["a"] := rfl
    rw [hrfl, h3, h4]
    rfl
  · exact no_cycle_of_no_deps c2dup (by
      intro t ht
      rcases List.mem_cons.mp ht with rfl | ht2
      · rfl
      · rcases List.mem_cons.mp ht2 with rfl | ht3
        · rfl
        · exact absurd ht3 (List.not_mem_nil t))

/-- C2 amended. For every task list satisfying the parser's contract
(unique ids, every depends_on entry present among the ids),
`detect_cycles` returns true iff the dependency graph contains a cycle —
equivalently iff Kahn's algorithm processes fewer tasks than the total
count, which is the definition — and in that case `get_execution_order`
raises the dependency-cycle error and produces no plan. -/
theorem c2_detect_cycles_iff_amended (tasks : List FlowTask)
    (hnd : (tasks.map (fun t => t.id)).Nodup)
    (hval : ∀ t ∈ tasks, ∀ d ∈ t.depends_on, d ∈ tasks.map (fun t => t.id)) :
    (detect_cycles tasks = true ↔ HasCycle tasks) ∧
    (detect_cycles tasks = true →
      ∀ setOrder, get_execution_order tasks setOrder = .error "cyclic dependencies") := by
  refine ⟨detect_cycles_iff tasks hnd hval, fun hdet setOrder => ?_⟩
  unfold get_execution_order
  rw [if_pos hdet]

/-- Mutually dependent tasks used by the C2 witness. -/
def c2cyc : List FlowTask :=
  [{ id := "a", run := "echo a", depends_on := ["b"] },
   { id := "b", run := "echo b", depends_on := ["a"] }]

theorem c2_witness :
    ((c2cyc.map (fun t => t.id)).Nodup ∧
      ∀ t ∈ c2cyc, ∀ d ∈ t.depends_on, d ∈ c2cyc.map (fun t => t.id)) ∧
    ((detect_cycles c2cyc = true ↔ HasCycle c2cyc) ∧
      (detect_cycles c2cyc = true →
        ∀ setOrder, get_execution_order c2cyc setOrder = .error "cyclic dependencies")) :=
  ⟨⟨by decide, by decide⟩,
    c2_detect_cycles_iff_amended c2cyc (by decide) (by decide)⟩

/-! ## Leveling-loop lemmas -/

theorem foldl_dadd_neg (ns : List String) :
    ∀ (dg : List (String × Int)) (v : String),
      dlookup (ns.foldl (fun dg nb => dadd dg nb (-1)) dg) v =
        dlookup dg v - ns.count v := by
  induction ns with
  | nil => intro dg v; simp
  | cons nb rest ih =>
    intro dg v
    simp only [List.foldl_cons]
    rw [ih (dadd dg nb (-1)) v]
    by_cases hv : v = nb
    · rw [hv, dlookup_dadd_self]
      have : (nb :: rest).count nb = rest.count nb + 1 := by simp [List.count_cons]
      rw [this]
      push_cast
      ring
    · rw [dlookup_dadd_ne dg nb v (-1) hv]
      have hb : (nb == v) = false := by
        rw [beq_eq_false_iff_ne]
        exact fun hh => hv hh.symm
      rw [List.count_cons, hb]
      simp

theorem decAll_lookup (g : List (String × List String)) (cs : List String) :
    ∀ (dg : List (String × Int)) (v : String),
      dlookup (cs.foldl (fun dg c => (glookup g c).foldl (fun dg nb => dadd dg nb (-1)) dg) dg) v
        = dlookup dg v - (cs.map (fun c => ((glookup g c).count v : Int))).sum := by
  induction cs with
  | nil => intro dg v; simp
  | cons c rest ih =>
    intro dg v
    simp only [List.foldl_cons]
    rw [ih _ v, foldl_dadd_neg (glookup g c) dg v]
    simp only [List.map_cons, List.sum_cons]
    ring

theorem countP_cons_distrib (l : List String) (c : String) (cs : List String) (hc : c ∉ cs) :
    l.countP (fun d => (c :: cs).contains d) =
      l.count c + l.countP (fun d => cs.contains d) := by
  induction l with
  | nil => simp
  | cons d rest ih =>
    rw [List.countP_cons, List.countP_cons, List.count_cons]
    by_cases hd : d = c
    · have h1 : ((c :: cs).contains d) = true :=
        contains_true_of_mem _ _ (by rw [hd]; exact List.mem_cons_self _ _)
      have h2 : (cs.contains d) = false :=
        contains_false_of_notmem _ _ (by rw [hd]; exact hc)
      have h3 : (d == c) = true := by simp [hd]
      rw [h1, h2, h3]
      simp only [if_true, Bool.false_eq_true, if_false]
      omega
    · have h3 : (d == c) = false := by simp [hd]
      have h1 : ((c :: cs).contains d) = (cs.contains d) := by
        by_cases hdcs : d ∈ cs
        · rw [contains_true_of_mem _ _ hdcs,
            contains_true_of_mem _ _ (List.mem_cons_of_mem _ hdcs)]
        · rw [contains_false_of_notmem _ _ hdcs, contains_false_of_notmem _ _ (by
            simp only [List.mem_cons]
            push_neg
            exact ⟨hd, hdcs⟩)]
      rw [h1, h3]
      simp only [Bool.false_eq_true, if_false]
      omega

theorem countP_eq_sum_counts (l : List String) :
    ∀ (cs : List String), cs.Nodup →
      ((l.countP (fun d => cs.contains d) : Int)) =
        (cs.map (fun c => ((l.count c : Nat) : Int))).sum := by
  intro cs
  induction cs with
  | nil =>
    intro _
    simp only [List.map_nil, List.sum_nil]
    have : l.countP (fun d => (([] : List String)).contains d) = 0 := by
      rw [List.countP_eq_zero]
      intro a _
      simp
    rw [this]
    simp
  | cons c rest ih =>
    intro hnd
    rw [List.nodup_cons] at hnd
    rw [countP_cons_distrib l c rest hnd.1]
    rw [List.map_cons, List.sum_cons]
    push_cast
    rw [ih hnd.2]

theorem countP_split_remove (l rem cs : List String) (hsub : ∀ x ∈ cs, x ∈ rem) :
    l.countP (fun d => rem.contains d) =
      l.countP (fun d => (rem.filter (fun v => !(cs.contains v))).contains d) +
        l.countP (fun d => cs.contains d) := by
  induction l with
  | nil => simp
  | cons d rest ih =>
    rw [List.countP_cons, List.countP_cons, List.countP_cons]
    by_cases hdcs : d ∈ cs
    · have h1 : (cs.contains d) = true := contains_true_of_mem _ _ hdcs
      have h2 : (rem.contains d) = true := contains_true_of_mem _ _ (hsub d hdcs)
      have h3 : ((rem.filter (fun v => !(cs.contains v))).contains d) = false := by
        apply contains_false_of_notmem
        intro hmem
        have := (List.mem_filter.mp hmem).2
        rw [h1] at this
        exact Bool.noConfusion this
      rw [h1, h2, h3]
      simp only [if_true, Bool.false_eq_true, if_false]
      omega
    · have h1 : (cs.contains d) = false := contains_false_of_notmem _ _ hdcs
      by_cases hdrem : d ∈ rem
      · have h2 : (rem.contains d) = true := contains_true_of_mem _ _ hdrem
        have h3 : ((rem.filter (fun v => !(cs.contains v))).contains d) = true := by
          apply contains_true_of_mem
          exact List.mem_filter.mpr ⟨hdrem, by rw [h1]; rfl⟩
        rw [h1, h2, h3]
        simp only [if_true, Bool.false_eq_true, if_false]
        omega
      · have h2 : (rem.contains d) = false := contains_false_of_notmem _ _ hdrem
        have h3 : ((rem.filter (fun v => !(cs.contains v))).contains d) = false := by
          apply contains_false_of_notmem
          intro hmem
          exact hdrem (List.mem_filter.mp hmem).1
        rw [h1, h2, h3]
        simp only [Bool.false_eq_true, if_false]
        omega

theorem levelLoop_master (tasks : List FlowTask)
    (hnd : (tasks.map (fun t => t.id)).Nodup)
    (hval : ∀ t ∈ tasks, ∀ d ∈ t.depends_on, d ∈ tasks.map (fun t => t.id))
    (hacyc : ¬ HasCycle tasks) :
    ∀ n deg remaining, remaining.length ≤ n →
      remaining.Nodup →
      (∀ v ∈ remaining, v ∈ tasks.map (fun t => t.id)) →
      (∀ v ∈ tasks.map (fun t => t.id),
        dlookup deg v = ((depsOf tasks v).countP (fun d => remaining.contains d) : Int)) →
      ∃ levels, levelLoop (buildGraph tasks) deg remaining = .ok levels ∧
        List.Perm levels.flatten remaining ∧
        ∀ i (hi : i < levels.length), ∀ v ∈ levels.get ⟨i, hi⟩, ∀ d ∈ depsOf tasks v,
          d ∉ remaining ∨ ∃ j, ∃ (hj : j < levels.length), j < i ∧ d ∈ levels.get ⟨j, hj⟩ := by
  intro n
  induction n with
  | zero =>
    intro deg remaining hm hndr hsub hinv
    have hre : remaining = [] := List.length_eq_zero.mp (by omega)
    subst hre
    refine ⟨[], by rw [levelLoop]; rfl, by simp, ?_⟩
    intro i hi
    simp at hi
  | succ n ih =>
    intro deg remaining hm hndr hsub hinv
    by_cases hre : remaining.isEmpty
    · have hre2 : remaining = [] := List.isEmpty_iff.mp hre
      subst hre2
      refine ⟨[], by rw [levelLoop]; rfl, by simp, ?_⟩
      intro i hi
      simp at hi
    · by_cases hcur : (remaining.filter (fun v => dlookup deg v == 0)).isEmpty
      · exfalso
        have hrnil : remaining ≠ [] := by
          intro hh
          rw [hh] at hre
          exact hre rfl
        have hpred : ∀ v ∈ remaining, ∃ u ∈ remaining, dependsEdge tasks u v := by
          intro v hv
          have hvids := hsub v hv
          have hdegne : dlookup deg v ≠ 0 := by
            intro h0
            have : v ∈ remaining.filter (fun v => dlookup deg v == 0) :=
              List.mem_filter.mpr ⟨hv, by rw [h0]; rfl⟩
            rw [List.isEmpty_iff.mp hcur] at this
            exact absurd this (List.not_mem_nil v)
          rw [hinv v hvids] at hdegne
          have hpos : 0 < (depsOf tasks v).countP (fun d => remaining.contains d) := by
            by_contra hc
            push_neg at hc
            apply hdegne
            have : (depsOf tasks v).countP (fun d => remaining.contains d) = 0 := by omega
            rw [this]
            simp
          obtain ⟨d, hd, hdpred⟩ := List.countP_pos_iff.mp hpos
          have hdrem : d ∈ remaining := List.elem_iff.mp hdpred
          obtain ⟨t, ht, rfl⟩ := exists_task_of_mem_ids tasks v hvids
          refine ⟨d, hdrem, t, ht, rfl, ?_⟩
          rw [depsOf_eq tasks t hnd ht] at hd
          exact hd
        exact hacyc (exists_cycle_of_all_pred (dependsEdge tasks) remaining hrnil hpred)
      · have hsubcur : ∀ x ∈ remaining.filter (fun v => dlookup deg v == 0), x ∈ remaining :=
          fun x hx => (List.mem_filter.mp hx).1
        have hcurnd : (remaining.filter (fun v => dlookup deg v == 0)).Nodup :=
          hndr.filter _
        have hcurdeg : ∀ v ∈ remaining.filter (fun v => dlookup deg v == 0),
            dlookup deg v = 0 := by
          intro v hv
          have := (List.mem_filter.mp hv).2
          simpa using this
        have hlen : (remaining.filter
            (fun v => !((remaining.filter (fun v => dlookup deg v == 0)).contains v))).length
            < remaining.length := by
          have hnonnil : remaining.filter (fun v => dlookup deg v == 0) ≠ [] := by
            intro hh
            rw [hh] at hcur
            exact hcur rfl
          obtain ⟨x, hx⟩ := List.exists_mem_of_ne_nil _ hnonnil
          have hxr : x ∈ remaining := hsubcur x hx
          have hxc : (remaining.filter (fun v => dlookup deg v == 0)).contains x = true :=
            List.elem_iff.mpr hx
          refine List.length_filter_lt_length_iff_exists.mpr ⟨x, hxr, ?_⟩
          rw [hxc]
          decide
        -- invariant for the recursive call
        have hinv2 : ∀ v ∈ tasks.map (fun t => t.id),
            dlookup ((remaining.filter (fun v => dlookup deg v == 0)).foldl
              (fun dg c => (glookup (buildGraph tasks) c).foldl
                (fun dg nb => dadd dg nb (-1)) dg) deg) v =
            (((depsOf tasks v).countP (fun d =>
              (remaining.filter (fun w =>
                !((remaining.filter (fun v => dlookup deg v == 0)).contains w))).contains d)
              : Int)) := by
          intro v hv
          rw [decAll_lookup (buildGraph tasks) _ deg v, hinv v hv]
          have hsum : ((remaining.filter (fun v => dlookup deg v == 0)).map
              (fun c => ((glookup (buildGraph tasks) c).count v : Int))).sum =
              (((depsOf tasks v).countP (fun d =>
                (remaining.filter (fun v => dlookup deg v == 0)).contains d)) : Int) := by
            have heach : ∀ c, ((glookup (buildGraph tasks) c).count v : Int) =
                ((depsOf tasks v).count c : Int) := by
              intro c
              obtain ⟨t, ht, rfl⟩ := exists_task_of_mem_ids tasks v hv
              rw [count_glookup_buildGraph tasks t c hnd ht, depsOf_eq tasks t hnd ht]
            have hmapeq : ((remaining.filter (fun v => dlookup deg v == 0)).map
                (fun c => ((glookup (buildGraph tasks) c).count v : Int))) =
                ((remaining.filter (fun v => dlookup deg v == 0)).map
                  (fun c => ((depsOf tasks v).count c : Int))) :=
              List.map_congr_left (fun c _ => heach c)
            rw [hmapeq]
            rw [countP_eq_sum_counts (depsOf tasks v) _ hcurnd]
          rw [hsum]
          have hsplit := countP_split_remove (depsOf tasks v) remaining
            (remaining.filter (fun v => dlookup deg v == 0)) hsubcur
          omega
        obtain ⟨levels2, hok2, hperm2, hord2⟩ := ih
          ((remaining.filter (fun v => dlookup deg v == 0)).foldl
            (fun dg c => (glookup (buildGraph tasks) c).foldl
              (fun dg nb => dadd dg nb (-1)) dg) deg)
          (remaining.filter (fun v =>
            !((remaining.filter (fun v => dlookup deg v == 0)).contains v)))
          (by omega)
          (hndr.filter _)
          (fun v hv => hsub v (List.mem_filter.mp hv).1)
          hinv2
        have hstep : levelLoop (buildGraph tasks) deg remaining =
            (levelLoop (buildGraph tasks)
              ((remaining.filter (fun v => dlookup deg v == 0)).foldl
                (fun dg c => (glookup (buildGraph tasks) c).foldl
                  (fun dg nb => dadd dg nb (-1)) dg) deg)
              (remaining.filter (fun v =>
                !((remaining.filter (fun v => dlookup deg v == 0)).contains v)))).map
              (fun ls => (remaining.filter (fun v => dlookup deg v == 0)) :: ls) := by
          rw [levelLoop]
          rw [if_neg hre]
          rw [dif_neg hcur]
        refine ⟨(remaining.filter (fun v => dlookup deg v == 0)) :: levels2, ?_, ?_, ?_⟩
        · rw [hstep, hok2]
          rfl
        · rw [List.flatten_cons]
          have hcong : remaining.filter (fun v =>
              !((remaining.filter (fun v => dlookup deg v == 0)).contains v)) =
              remaining.filter (fun v => !(dlookup deg v == 0)) := by
            apply List.filter_congr
            intro x hx
            by_cases hx0 : dlookup deg x = 0
            · have : (remaining.filter (fun v => dlookup deg v == 0)).contains x = true :=
                contains_true_of_mem _ _ (List.mem_filter.mpr ⟨hx, by rw [hx0]; rfl⟩)
              rw [this]
              have : (dlookup deg x == 0) = true := by rw [hx0]; rfl
              rw [this]
            · have : (remaining.filter (fun v => dlookup deg v == 0)).contains x = false := by
                apply contains_false_of_notmem
                intro hmem
                have := (List.mem_filter.mp hmem).2
                simp only [beq_iff_eq] at this
                exact hx0 this
              rw [this]
              have : (dlookup deg x == 0) = false := by
                rw [beq_eq_false_iff_ne]
                exact hx0
              rw [this]
          rw [hcong] at hperm2
          have hfp := List.filter_append_perm (fun v => dlookup deg v == 0) remaining
          exact List.Perm.trans (List.Perm.append_left _ hperm2) hfp
        · intro i hi v hv d hd
          cases i with
          | zero =>
            left
            have hvc : v ∈ remaining.filter (fun v => dlookup deg v == 0) := hv
            have hv0 : dlookup deg v = 0 := hcurdeg v hvc
            have hvids : v ∈ tasks.map (fun t => t.id) := hsub v (hsubcur v hvc)
            have h1 := hinv v hvids
            rw [hv0] at h1
            have hcp : (depsOf tasks v).countP (fun d => remaining.contains d) = 0 := by
              omega
            rw [List.countP_eq_zero] at hcp
            intro hdrem
            have h2 := hcp d hd
            rw [contains_true_of_mem _ _ hdrem] at h2
            exact h2 rfl
          | succ i0 =>
            have hi0 : i0 < levels2.length := by
              simp only [List.length_cons] at hi
              omega
            have hv2 : v ∈ levels2.get ⟨i0, hi0⟩ := hv
            rcases hord2 i0 hi0 v hv2 d hd with hnot | ⟨j0, hj0, hlt, hmem⟩
            · by_cases hdrem : d ∈ remaining
              · right
                have hdcur : d ∈ remaining.filter (fun v => dlookup deg v == 0) := by
                  by_contra hdc
                  apply hnot
                  refine List.mem_filter.mpr ⟨hdrem, ?_⟩
                  rw [contains_false_of_notmem _ _ hdc]
                  rfl
                exact ⟨0, by simp, Nat.succ_pos i0, hdcur⟩
              · exact Or.inl hdrem
            · right
              refine ⟨j0 + 1, ?_, Nat.succ_lt_succ hlt, ?_⟩
              · simp only [List.length_cons]
                omega
              · exact hmem

/-! ## C1: the execution plan partitions the ids and respects dependencies -/

theorem countP_levels_one (L : List (List String)) (x : String)
    (h : L.flatten.count x = 1) : L.countP (fun lv => lv.contains x) = 1 := by
  induction L with
  | nil => simp at h
  | cons lv L ih =>
    rw [List.flatten_cons, List.count_append] at h
    rw [List.countP_cons]
    by_cases hx : x ∈ lv
    · have hpos : lv.count x ≠ 0 := fun h0 => (List.count_eq_zero.mp h0) hx
      have hz : L.flatten.count x = 0 := by omega
      have hnone : ∀ lv2 ∈ L, x ∉ lv2 := by
        intro lv2 hlv2 hxin
        have hmem : x ∈ L.flatten := List.mem_flatten.mpr ⟨lv2, hlv2, hxin⟩
        rw [List.count_eq_zero] at hz
        exact hz hmem
      have hcp : L.countP (fun lv2 => lv2.contains x) = 0 := by
        rw [List.countP_eq_zero]
        intro lv2 hlv2
        rw [contains_false_of_notmem lv2 x (hnone lv2 hlv2)]
        exact Bool.false_ne_true
      rw [hcp, contains_true_of_mem lv x hx]
      rfl
    · have hz : lv.count x = 0 := List.count_eq_zero.mpr hx
      rw [contains_false_of_notmem lv x hx]
      simp only [Bool.false_eq_true, if_false]
      exact ih (by omega)

/-- **C1.** For every acyclic task list with unique ids whose dependencies all
refer to existing ids, and every enumeration order of the id set,
`get_execution_order` succeeds and returns levels in which every task id
appears in exactly one level and every dependency of a task appears in a
strictly earlier level. -/
theorem c1_execution_order (tasks : List FlowTask) (setOrder : List String)
    (hnd : (tasks.map (fun t => t.id)).Nodup)
    (hval : ∀ t ∈ tasks, ∀ d ∈ t.depends_on, d ∈ tasks.map (fun t => t.id))
    (hacyc : ¬ HasCycle tasks)
    (hso : List.Perm setOrder (tasks.map (fun t => t.id))) :
    ∃ levels, get_execution_order tasks setOrder = .ok levels ∧
      (∀ t ∈ tasks, levels.countP (fun lv => lv.contains t.id) = 1) ∧
      (∀ i (hi : i < levels.length), ∀ t ∈ tasks, t.id ∈ levels.get ⟨i, hi⟩ →
        ∀ d ∈ t.depends_on,
          ∃ j, ∃ hj : j < levels.length, j < i ∧ d ∈ levels.get ⟨j, hj⟩) := by
  have hdet : detect_cycles tasks = false :=
    Bool.eq_false_iff.mpr (fun h => hacyc ((detect_cycles_iff tasks hnd hval).mp h))
  have hndso : setOrder.Nodup := (hso.nodup_iff).mpr hnd
  obtain ⟨levels, hok, hperm, hord⟩ :=
    levelLoop_master tasks hnd hval hacyc setOrder.length (buildDeg tasks) setOrder
      le_rfl hndso (fun v hv => hso.mem_iff.mp hv)
      (by
        intro v hv
        obtain ⟨t, ht, rfl⟩ := exists_task_of_mem_ids tasks v hv
        rw [buildDeg_dlookup tasks t hnd ht, depsOf_eq tasks t hnd ht]
        have hcp : t.depends_on.countP (fun d => setOrder.contains d) =
            t.depends_on.length := by
          rw [List.countP_eq_length]
          intro d hd
          exact contains_true_of_mem _ _ (hso.mem_iff.mpr (hval t ht d hd))
        rw [hcp])
  refine ⟨levels, ?_, ?_, ?_⟩
  · unfold get_execution_order
    rw [hdet]
    simpa using hok
  · intro t ht
    apply countP_levels_one
    rw [hperm.count_eq, hso.count_eq]
    exact List.count_eq_one_of_mem hnd (List.mem_map_of_mem _ ht)
  · intro i hi t ht hmem d hd
    have hd2 : d ∈ depsOf tasks t.id := by
      rw [depsOf_eq tasks t hnd ht]
      exact hd
    rcases hord i hi t.id hmem d hd2 with hno | hex
    · exact absurd (hso.mem_iff.mpr (hval t ht d hd)) hno
    · exact hex

/-- Concrete pipeline for the C1 witness: b depends on a. -/
def c1tasks : List FlowTask :=
  [{ id := "a", run := "echo a", depends_on := [] },
   { id := "b", run := "echo b", depends_on := ["a"] }]

/-- C1 witness: the theorem applied to the two-task pipeline above with
enumeration order b before a. -/
theorem c1_witness :
    ∃ levels, get_execution_order c1tasks ["b", "a"] = .ok levels ∧
      (∀ t ∈ c1tasks, levels.countP (fun lv => lv.contains t.id) = 1) ∧
      (∀ i (hi : i < levels.length), ∀ t ∈ c1tasks, t.id ∈ levels.get ⟨i, hi⟩ →
        ∀ d ∈ t.depends_on,
          ∃ j, ∃ hj : j < levels.length, j < i ∧ d ∈ levels.get ⟨j, hj⟩) :=
  c1_execution_order c1tasks ["b", "a"] (by decide) (by decide)
    (by
      rintro ⟨v, hv⟩
      have hstep : ∀ u w, dependsEdge c1tasks u w → u = "a" ∧ w = "b" := by
        intro u w hw
        obtain ⟨t, ht, hid, hu⟩ := hw
        rcases List.mem_cons.mp ht with rfl | ht2
        · exact absurd hu (by simp)
        · rcases List.mem_cons.mp ht2 with rfl | ht3
          · refine ⟨?_, hid.symm ▸ rfl⟩
            simpa using hu
          · exact absurd ht3 (List.not_mem_nil t)
      have hab : ∀ w, Relation.TransGen (dependsEdge c1tasks) v w → v = "a" ∧ w = "b" := by
        intro w hw
        induction hw with
        | single h1 => exact ⟨(hstep _ _ h1).1, (hstep _ _ h1).2⟩
        | tail h1 h2 ih2 =>
          exact ⟨ih2.1, (hstep _ _ h2).2⟩
      obtain ⟨h1, h2⟩ := hab v hv
      rw [h1] at h2
      exact absurd h2 (by decide))
    (by decide)

/-! ## C9: level-internal ordering under different set iteration orders -/

/-- Two independent tasks used for C9. -/
def c9tasks : List FlowTask :=
  [{ id := "a", run := "echo a", depends_on := [] },
   { id := "b", run := "echo b", depends_on := [] }]

/-- **C9.** REFUTED for the code as written: the order of task ids inside a
level is exactly the iteration order of the Python set `remaining`, which
depends on hash seeding. For the same two independent tasks, iteration
order a,b yields the level `["a", "b"]` while iteration order b,a yields
`["b", "a"]`, so two runs of `get_execution_order` need not produce
identically ordered levels. -/
theorem c9_order_depends_on_set_iteration :
    get_execution_order c9tasks ["a", "b"] = .ok [["a", "b"]] ∧
    get_execution_order c9tasks ["b", "a"] = .ok [["b", "a"]] ∧
    get_execution_order c9tasks ["a", "b"] ≠ get_execution_order c9tasks ["b", "a"] := by
  have hdet : detect_cycles c9tasks = false :=
    Bool.eq_false_iff.mpr (fun h =>
      (no_cycle_of_no_deps c9tasks (by decide))
        ((detect_cycles_iff c9tasks (by decide) (by decide)).mp h))
  have hnil : levelLoop (buildGraph c9tasks) (buildDeg c9tasks) [] = .ok [] := by
    rw [levelLoop]
    rfl
  have hA : levelLoop (buildGraph c9tasks) (buildDeg c9tasks) ["a", "b"] =
      (levelLoop (buildGraph c9tasks) (buildDeg c9tasks) []).map
        (fun ls => ["a", "b"] :: ls) := by
    rw [levelLoop]
    rfl
  have hB : levelLoop (buildGraph c9tasks) (buildDeg c9tasks) ["b", "a"] =
      (levelLoop (buildGraph c9tasks) (buildDeg c9tasks) []).map
        (fun ls => ["b", "a"] :: ls) := by
    rw [levelLoop]
    rfl
  have e1 : get_execution_order c9tasks ["a", "b"] = .ok [["a", "b"]] := by
    unfold get_execution_order
    rw [hdet]
    simp only [Bool.false_eq_true, if_false]
    rw [hA, hnil]
    rfl
  have e2 : get_execution_order c9tasks ["b", "a"] = .ok [["b", "a"]] := by
    unfold get_execution_order
    rw [hdet]
    simp only [Bool.false_eq_true, if_false]
    rw [hB, hnil]
    rfl
  refine ⟨e1, e2, ?_⟩
  rw [e1, e2]
  intro hh
  have := Except.ok.inj hh
  simp at this

/-! ## C7: resume does not re-attempt a task whose attempts are exhausted -/

/-- Tasks for the C7 resume scenario: a and b independent, c needs both. -/
def c7taska : FlowTask := { id := "a", run := "exit 0", depends_on := [] }

def c7taskb : FlowTask := { id := "b", run := "exit 0", depends_on := [] }

def c7taskc : FlowTask := { id := "c", run := "exit 0", depends_on := ["a", "b"] }

def c7tasks : List FlowTask := [c7taska, c7taskb, c7taskc]

/-- Every child process would exit 0: b's command has been fixed. -/
def c7env : Nat → AttemptOutcome := fun _ => .exit 0 ""

/-- State file persisted by the crashed first run: a done after one attempt,
b failed after its one attempt (retries = 0). -/
def c7file : StateFile :=
  .parsed [("a", ⟨"done", 1, some 0, none⟩), ("b", ⟨"failed", 1, some 1, some 2⟩)]

/-- a's result as reconstituted by `load_state`. -/
def c7resA : TaskResult := ⟨"a", .success, some 0, none, 1, "", ""⟩

/-- b's result as reconstituted by `load_state`. -/
def c7resB : TaskResult := ⟨"b", .failed, some 1, some 2, 1, "", ""⟩

/-- b's result after `execute_task` runs on resume: still failed, attempts
still 1, only the `end_time` restamped — no new attempt was made. -/
def c7resB2 : TaskResult := ⟨"b", .failed, some 1, some 0, 1, "", ""⟩

/-- Executor state right after `load_state` on resume. -/
def c7loaded : ExecState := ⟨[("a", c7resA), ("b", c7resB)], c7file, 0, 0⟩

/-- Final executor state of the resumed run. -/
def c7final : ExecState :=
  ⟨[("a", c7resA), ("b", c7resB2)],
   .parsed [("a", ⟨"done", 1, some 0, none⟩), ("b", ⟨"failed", 1, some 1, some 0⟩)],
   0, 1⟩

/-- **C7.** REFUTED for the code as written: on resume with retries = 0, the
loaded task b has status failed (not done) yet is never re-attempted,
because its persisted `attempts` already equals `max_attempts`, so the
`while result.attempts < max_attempts` loop body never runs. Even though
b's command now exits 0 (the environment makes every spawn succeed), the
whole resumed run spawns zero processes, b is re-marked failed, c stays
blocked, the run fails, and the state file is not cleared — contradicting
"re-runs b and c, ends successfully, clears the state file". -/
theorem c7_resume_never_reattempts_exhausted_task :
    runPipeline c7tasks 0 true ["a", "b", "c"] c7env c7file = (false, c7final) ∧
    c7final.spawns = 0 ∧
    rlookup c7final.results "b" = some c7resB2 ∧
    c7resB2.status = TaskStatus.failed ∧
    c7final.stateFile ≠ StateFile.absent := by
  refine ⟨?_, rfl, by decide, rfl, by decide⟩
  have hnocyc : ¬ HasCycle c7tasks := by
    have hstep : ∀ u w, dependsEdge c7tasks u w → (u = "a" ∨ u = "b") ∧ w = "c" := by
      intro u w hw
      obtain ⟨t, ht, hid, hu⟩ := hw
      rcases List.mem_cons.mp ht with rfl | ht2
      · exact absurd hu (by simp [c7taska])
      · rcases List.mem_cons.mp ht2 with rfl | ht3
        · exact absurd hu (by simp [c7taskb])
        · rcases List.mem_cons.mp ht3 with rfl | ht4
          · refine ⟨?_, hid.symm⟩
            simpa [c7taskc] using hu
          · exact absurd ht4 (List.not_mem_nil t)
    rintro ⟨v, hv⟩
    have hab : ∀ w, Relation.TransGen (dependsEdge c7tasks) v w →
        (v = "a" ∨ v = "b") ∧ w = "c" := by
      intro w hw
      induction hw with
      | single h1 => exact hstep _ _ h1
      | tail h1 h2 ih2 => exact ⟨ih2.1, (hstep _ _ h2).2⟩
    obtain ⟨h1, h2⟩ := hab v hv
    rcases h1 with rfl | rfl
    · exact absurd h2 (by decide)
    · exact absurd h2 (by decide)
  have hdet : detect_cycles c7tasks = false :=
    Bool.eq_false_iff.mpr (fun h =>
      hnocyc ((detect_cycles_iff c7tasks (by decide) (by decide)).mp h))
  have h2 : levelLoop (buildGraph c7tasks) [("a", 0), ("b", 0), ("c", 0)] [] =
      .ok [] := by
    rw [levelLoop]
    rfl
  have h1 : levelLoop (buildGraph c7tasks) [("a", 0), ("b", 0), ("c", 0)] ["c"] =
      (levelLoop (buildGraph c7tasks) [("a", 0), ("b", 0), ("c", 0)] []).map
        (fun ls => ["c"] :: ls) := by
    rw [levelLoop]
    rfl
  have h0 : levelLoop (buildGraph c7tasks) (buildDeg c7tasks) ["a", "b", "c"] =
      (levelLoop (buildGraph c7tasks) [("a", 0), ("b", 0), ("c", 0)] ["c"]).map
        (fun ls => ["a", "b"] :: ls) := by
    rw [levelLoop]
    rfl
  have hplan : get_execution_order c7tasks ["a", "b", "c"] = .ok [["a", "b"], ["c"]] := by
    unfold get_execution_order
    rw [hdet]
    simp only [Bool.false_eq_true, if_false]
    rw [h0, h1, h2]
    rfl
  have hexecb : execute_task 0 c7env c7taskb c7loaded = (c7resB2, c7final) := by
    have hb : execute_task 0 c7env c7taskb c7loaded =
        executeLoop 0 c7env c7taskb c7resB c7loaded := rfl
    rw [hb, executeLoop]
    rfl
  have hexeclv : execute_level 0 c7env [c7taska, c7taskb] c7loaded =
      ([c7resB2, c7resA], c7final) := by
    have hb2 : execute_level 0 c7env [c7taska, c7taskb] c7loaded =
        ((execute_task 0 c7env c7taskb c7loaded).1 ::
          [c7taska].filterMap
            (fun t => rlookup (execute_task 0 c7env c7taskb c7loaded).2.results t.id),
         (execute_task 0 c7env c7taskb c7loaded).2) := rfl
    rw [hb2, hexecb]
    rfl
  have hlev1 : runLevelStep c7tasks 0 c7env ["a", "b"] (0, c7loaded) = (1, c7final) := by
    have hbridge : runLevelStep c7tasks 0 c7env ["a", "b"] (0, c7loaded) =
        (0 + (execute_level 0 c7env [c7taska, c7taskb] c7loaded).1.countP
          (fun r => r.status = TaskStatus.failed),
         (execute_level 0 c7env [c7taska, c7taskb] c7loaded).2) := rfl
    rw [hbridge, hexeclv]
    rfl
  have hlevels : runLevels c7tasks 0 c7env [["a", "b"], ["c"]] (0, c7loaded) =
      (1, c7final) := by
    have hb3 : runLevels c7tasks 0 c7env [["a", "b"], ["c"]] (0, c7loaded) =
        runLevels c7tasks 0 c7env [["c"]]
          (runLevelStep c7tasks 0 c7env ["a", "b"] (0, c7loaded)) := rfl
    rw [hb3, hlev1]
    rfl
  unfold runPipeline
  rw [hplan]
  show (if (runLevels c7tasks 0 c7env [["a", "b"], ["c"]] (0, c7loaded)).1 > 0
        then (false, (runLevels c7tasks 0 c7env [["a", "b"], ["c"]] (0, c7loaded)).2)
        else (true, { (runLevels c7tasks 0 c7env [["a", "b"], ["c"]] (0, c7loaded)).2 with
                      stateFile := StateFile.absent })) = (false, c7final)
  rw [hlevels]
  rfl
